import Mathlib

set_option maxRecDepth 100000

/-!
Verification of the `pylogutil` line-filtering core.

The development shallowly embeds the Python sources:
  * `src/pylogutil/_linefiltering/_colorgen.py`   (class `RgbConverter`)
  * `src/pylogutil/_linefiltering/_regexfilterbase.py`
  * `src/pylogutil/_linefilters.py`               (timestamp / ipv4 / ipv6 filters)
  * `src/pylogutil/util.py`                       (duplicated filters, `Rgb`, `main`)

Python strings are embedded as `List Char`; Python `int` as `Int` (or `Nat`
where the value is known non-negative); Python `%` and `//` (floor semantics,
sign of the divisor) as `Int.fmod` / `Int.fdiv`; fallible operations such as
`int(s, 16)` return `Option`.  `click.style` is treated as an opaque injective
tagging of a text with a style record, so a processed line is a list of
segments, each either raw text or styled text.
-/

/-! ## Python arithmetic primitives -/

/-- Python `%`: floor modulus (result has the sign of the divisor). -/
def pyMod (a b : Int) : Int := Int.fmod a b

/-- Python `//`: floor division. -/
def pyFloorDiv (a b : Int) : Int := Int.fdiv a b

/-- CPython `hash` on a small non-negative `int`: `n % (2^61 - 1)`. -/
def pyHash (n : Nat) : Int := pyMod (n : Int) (2 ^ 61 - 1)

/-! ## Character classes (by code point, as in the regex source) -/

/-- The regex class `[0-9]`. -/
def isDig (c : Char) : Bool := 48 ≤ c.toNat && c.toNat ≤ 57

/-- The regex class `[0-9a-fA-F]`. -/
def isHexD (c : Char) : Bool :=
  isDig c || (97 ≤ c.toNat && c.toNat ≤ 102) || (65 ≤ c.toNat && c.toNat ≤ 70)

/-- The regex class `[1-9a-fA-F]` (nonzero first hex digit). -/
def isHexNZ (c : Char) : Bool :=
  (49 ≤ c.toNat && c.toNat ≤ 57) || (97 ≤ c.toNat && c.toNat ≤ 102) ||
  (65 ≤ c.toNat && c.toNat ≤ 70)

/-- The regex class `[1-9]`. -/
def isDig19 (c : Char) : Bool := 49 ≤ c.toNat && c.toNat ≤ 57

/-- The regex class `[0-5]`. -/
def isDig05 (c : Char) : Bool := 48 ≤ c.toNat && c.toNat ≤ 53

/-- The regex class `[0-4]`. -/
def isDig04 (c : Char) : Bool := 48 ≤ c.toNat && c.toNat ≤ 52

/-! ## Numeric parsing (`int(s)` and `int(s, 16)` on plain digit strings) -/

/-- Value of a decimal digit character, `none` when not `[0-9]`. -/
def decDigitVal (c : Char) : Option Nat :=
  if isDig c then some (c.toNat - 48) else none

/-- Value of a hexadecimal digit character, `none` when not `[0-9a-fA-F]`. -/
def hexDigitVal (c : Char) : Option Nat :=
  if isDig c then some (c.toNat - 48)
  else if 97 ≤ c.toNat && c.toNat ≤ 102 then some (c.toNat - 87)
  else if 65 ≤ c.toNat && c.toNat ≤ 70 then some (c.toNat - 55)
  else none

/-- Python `int(s)` restricted to plain digit strings: fails (raises
`ValueError`, modelled as `none`) on the empty string or a non-digit. -/
def pyIntDec (u : List Char) : Option Nat :=
  if u.isEmpty then none
  else u.foldl (fun acc c => acc.bind fun a => (decDigitVal c).map fun v => 10 * a + v)
    (some 0)

/-- Python `int(s, 16)` restricted to plain hex-digit strings: fails on the
empty string or a non-hex-digit. -/
def pyIntHex (u : List Char) : Option Nat :=
  if u.isEmpty then none
  else u.foldl (fun acc c => acc.bind fun a => (hexDigitVal c).map fun v => 16 * a + v)
    (some 0)

/-! ## Python string splitting -/

/-- Python `s.split(sep)` for a one-character separator: always returns at
least one piece, with a piece boundary at every occurrence of `sep`. -/
def pySplit (sep : Char) : List Char → List (List Char)
  | [] => [[]]
  | c :: rest =>
    if c = sep then [] :: pySplit sep rest
    else
      match pySplit sep rest with
      | [] => [[c]]
      | p :: ps => (c :: p) :: ps

/-- Python `s.split('::', maxsplit=1)`: scan left to right for the first
occurrence of two adjacent colons; return the part before it and, when found,
`some` of the part after it. -/
def pySplitOnceCC : List Char → List Char × Option (List Char)
  | [] => ([], none)
  | c :: rest =>
    if c = ':' ∧ rest.head? = some ':' then ([], some rest.tail)
    else
      let r := pySplitOnceCC rest
      (c :: r.1, r.2)

/-! ## Color derivation: `RgbConverter` (src/pylogutil/_linefiltering/_colorgen.py) -/

namespace RgbConverter

/-- Source `_min24 = 70`. -/
def min24 : Int := 70

/-- Source `_max24 = 255`. -/
def max24 : Int := 255

/-- Source `_range24 = _min24 - _max24` (the source computes `70 - 255 = -185`). -/
def range24 : Int := min24 - max24

/-- Source `_value_table_8bit`: all 8-bit colors with greyscale colors removed,
specifically 0, 7, 15 and 231-255: `tuple(x for x in range(256) if ...)`. -/
def valueTable8bit : List Nat :=
  (List.range 256).filter fun x =>
    ¬(x = 0 ∨ x = 7 ∨ x = 15 ∨ (231 ≤ x ∧ x ≤ 255))

/-- Source `_range8 = len(_value_table_8bit)`. -/
def range8 : Nat := valueTable8bit.length

/-- Source `RgbConverter.from_int_list_8bit`: fold `(acc + i) % _range8` over the
list, then index `_value_table_8bit` at the folded value.  The fold result is
in `[0, _range8)` so Python's indexing is the plain `getD`. -/
def from_int_list_8bit (lst : List Int) : Nat :=
  let idx := lst.foldl (fun acc i => pyMod (acc + i) (range8 : Int)) 0
  valueTable8bit.getD idx.toNat 0

/-- One step of the first loop of `from_int_list_24bit`: update channel
`i % 3` of the accumulator triple. -/
def step24 (lst : List Int) (rgb : Int × Int × Int) (i : Nat) : Int × Int × Int :=
  let v := lst.getD i 0
  match i % 3 with
  | 0 => (pyMod (rgb.1 + v + pyHash i) range24, rgb.2.1, rgb.2.2)
  | 1 => (rgb.1, pyMod (rgb.2.1 + v + pyHash i) range24, rgb.2.2)
  | _ => (rgb.1, rgb.2.1, pyMod (rgb.2.2 + v + pyHash i) range24)

/-- Source `RgbConverter.from_int_list_24bit`: process `len(lst) - len(lst) % 3`
elements round-robin over the three channels, fold the remaining elements
into all three channels with `((value + hash(pos)) // 3) % _range24`, then
add `_min24` to every channel. -/
def from_int_list_24bit (lst : List Int) : Int × Int × Int :=
  let extraCount := lst.length % 3
  let evenCount := lst.length - extraCount
  let rgb1 := (List.range evenCount).foldl (step24 lst) (0, 0, 0)
  let rgb2 := (List.range extraCount).foldl
    (fun rgb i =>
      let amount := pyMod (pyFloorDiv (lst.getD (evenCount + i) 0 + pyHash (evenCount + i)) 3)
        range24
      (rgb.1 + amount, rgb.2.1 + amount, rgb.2.2 + amount))
    rgb1
  (rgb2.1 + min24, rgb2.2.1 + min24, rgb2.2.2 + min24)

end RgbConverter

/-! ## Styled output segments (abstracting `click.style`) -/

/-- A foreground color argument to `click.style`: a named color string or an
8-bit palette index (Python passes an `int`). -/
inductive FgColor where
  | named (s : String)
  | idx (n : Nat)
deriving DecidableEq, Repr

/-- The style keywords used by the repository's calls to `click.style`. -/
structure StyleSpec where
  bold : Bool
  italic : Bool
  underline : Bool
  fg : Option FgColor
deriving DecidableEq, Repr

/-- One segment of a processed line: raw text, or text wrapped by
`click.style` with a given style. -/
inductive Seg where
  | raw (s : List Char)
  | styled (st : StyleSpec) (s : List Char)
deriving DecidableEq, Repr

/-- Source `click.style(text, ...)` produces a styled segment. -/
def clickStyle (st : StyleSpec) (s : List Char) : Seg := Seg.styled st s

/-! ## A regular-expression engine (Python `re` semantics for the patterns used)

All quantifiers in the repository's patterns are bounded, so bounded
repetition is unfolded into concatenation/alternation at pattern-construction
time, mirroring greedy leftmost-first backtracking: `X{0,n}` prefers matching
`X`.  Lookaround assertions are zero-width predicates over the subject string
and the current position.  A named group (as built by
`CompositeLineRegexFilter`) records its name as `lastgroup` when its body
matches; the repository never nests capturing groups, which this models. -/

inductive RE where
  | eps
  | cls (p : Char → Bool)
  | look (cond : List Char → Nat → Bool)
  | group (name : String) (r : RE)
  | cat (r1 r2 : RE)
  | alt (r1 r2 : RE)

/-- Source `r{n}`: exactly `n` copies. -/
def rePow (r : RE) : Nat → RE
  | 0 => .eps
  | n + 1 => .cat r (rePow r n)

/-- Source `r{0,n}` greedy: prefer consuming another `r`. -/
def reOptUpTo (r : RE) : Nat → RE
  | 0 => .eps
  | n + 1 => .alt (.cat r (reOptUpTo r n)) .eps

/-- Source `r{m,n}` greedy. -/
def reRep (r : RE) (m n : Nat) : RE := .cat (rePow r m) (reOptUpTo r (n - m))

/-- Source `r?` greedy. -/
def reOpt (r : RE) : RE := .alt r .eps

/-- Source `'|'.join(patterns)`: the empty join is the empty pattern. -/
def altList : List RE → RE
  | [] => .eps
  | [r] => r
  | r :: rs => .alt r (altList rs)

/-- Backtracking matcher in continuation-passing style.  `pos` is the current
position in `s`, `g` the name of the last completed named group, and `k` the
continuation receiving the position and group after this expression. -/
def reMatch (s : List Char) : RE → Nat → Option String →
    (Nat → Option String → Option (Nat × Option String)) → Option (Nat × Option String)
  | .eps, pos, g, k => k pos g
  | .cls p, pos, g, k =>
    match s.get? pos with
    | some c => if p c then k (pos + 1) g else none
    | none => none
  | .look cond, pos, g, k => if cond s pos then k pos g else none
  | .group n r, pos, g, k => reMatch s r pos g fun p _ => k p (some n)
  | .cat r1 r2, pos, g, k => reMatch s r1 pos g fun p g' => reMatch s r2 p g' k
  | .alt r1 r2, pos, g, k =>
    match reMatch s r1 pos g k with
    | some res => some res
    | none => reMatch s r2 pos g k

/-- First (greedy, leftmost alternative) match of `r` anchored at `pos`,
returning the end position and `lastgroup`. -/
def matchAt (s : List Char) (r : RE) (pos : Nat) : Option (Nat × Option String) :=
  reMatch s r pos none fun p g => some (p, g)

/-- One span reported during scanning: start, stop and `lastgroup`. -/
structure Span where
  start : Nat
  stop : Nat
  lastgroup : Option String
deriving DecidableEq, Repr

/-- Leftmost search: try `matchAt` at `pos`, `pos + 1`, ...; the fuel bounds
the number of positions still to try (every position up to `s.length` is a
candidate). -/
def searchAux (s : List Char) (r : RE) : Nat → Nat → Option Span
  | _, 0 => none
  | pos, fuel + 1 =>
    match matchAt s r pos with
    | some (stop, g) => some ⟨pos, stop, g⟩
    | none => searchAux s r (pos + 1) fuel

/-- All non-overlapping leftmost matches, scanning as `re.subn` does: resume
after each match, advancing by one position after an empty match. -/
def findAllAux (s : List Char) (r : RE) : Nat → Nat → List Span
  | _, 0 => []
  | pos, fuel + 1 =>
    match searchAux s r pos (s.length + 1 - pos) with
    | none => []
    | some sp => sp :: findAllAux s r (if sp.stop ≤ sp.start then sp.start + 1 else sp.stop) fuel

/-- The matches `re.subn` replaces in `s`. -/
def findAll (s : List Char) (r : RE) : List Span :=
  findAllAux s r 0 (s.length + 1)

/-- Substring `s[a:b]`. -/
def extract (s : List Char) (a b : Nat) : List Char := (s.drop a).take (b - a)

/-- The `re.Match` data the repository's callbacks consult: the subject
string (`match.string`), the span, and `match.lastgroup`. -/
structure MatchData where
  string : List Char
  start : Nat
  stop : Nat
  lastgroup : Option String

/-- Source `match.group(0)`: the matched substring. -/
def MatchData.group0 (m : MatchData) : List Char := extract m.string m.start m.stop

/-- Prepend raw text to a segment list; empty raw text is the identity of
string concatenation and produces no segment. -/
def consRaw (u : List Char) (segs : List Seg) : List Seg :=
  if u.isEmpty then segs else Seg.raw u :: segs

/-- Interleave the unmatched gaps of `s` with the callback's replacement for
each span; `none` when some callback raises. -/
def substSpans (cb : MatchData → Option (List Seg)) (s : List Char) :
    List Span → Nat → Option (List Seg)
  | [], pos => some (consRaw (s.drop pos) [])
  | sp :: rest, pos => do
    let r ← cb ⟨s, sp.start, sp.stop, sp.lastgroup⟩
    let tail ← substSpans cb s rest sp.stop
    pure (consRaw (extract s pos sp.start) (r ++ tail))

/-- Source `re.Pattern.subn(callback, line)`: the substituted line and the number of
replacements; `none` when a callback raises. -/
def subnModel (r : RE) (cb : MatchData → Option (List Seg)) (line : List Char) :
    Option (List Seg × Nat) :=
  (substSpans cb line (findAll line r) 0).map fun segs => (segs, (findAll line r).length)

/-- Source `LineRegexFilterBase.__call__`: run `subn`; if the replacement count is
`<= 0` return `None` (inner `none`), otherwise the new line.  The outer
`Option` models an exception escaping a callback. -/
def filterCall (r : RE) (cb : MatchData → Option (List Seg)) (line : List Char) :
    Option (Option (List Seg)) :=
  (subnModel r cb line).map fun res => if res.2 ≤ 0 then none else some res.1

/-- Source `LineRegexFilter._match_replace_callback`: pass `match.group(0)` to the
replacer. -/
def lrfCallback (replacer : List Char → Option (List Seg)) (m : MatchData) :
    Option (List Seg) :=
  replacer m.group0

/-- Source `LineRegexFilter.__call__` for a filter built from `pattern` and
`replacer` (the `lineregexfilter` decorator / `LineRegexFilter.replacer`). -/
def lrfCall (r : RE) (replacer : List Char → Option (List Seg)) (line : List Char) :
    Option (Option (List Seg)) :=
  filterCall r (lrfCallback replacer) line

/-- A sub-filter as stored by `CompositeLineRegexFilter._subfilters`: the
unique group key (derived from `id(f)` in the source; any process-unique
string), the sub-pattern, and the replacer. -/
structure SubFilter where
  key : String
  pat : RE
  replacer : List Char → Option (List Seg)

/-- Source `CompositeLineRegexFilter.__init__`: wrap each sub-pattern in a named
group and join with `|`. -/
def compositePattern (fs : List SubFilter) : RE :=
  altList (fs.map fun f => RE.group f.key f.pat)

/-- Source `CompositeLineRegexFilter._match_replace_callback`: if `match.lastgroup`
is `None` or unknown, return `match.string` (the whole subject line, exactly
as the source does); otherwise delegate to the owning sub-filter's replacer
on `match.group(0)`. -/
def compositeCallback (fs : List SubFilter) (m : MatchData) : Option (List Seg) :=
  match m.lastgroup with
  | none => some [Seg.raw m.string]
  | some k =>
    match fs.find? (fun f => f.key = k) with
    | none => some [Seg.raw m.string]
    | some f => f.replacer m.group0

/-- Source `CompositeLineRegexFilter.__call__`. -/
def compositeCall (fs : List SubFilter) (line : List Char) : Option (Option (List Seg)) :=
  filterCall (compositePattern fs) (compositeCallback fs) line

/-! ## The domain filter patterns (src/pylogutil/_linefilters.py; the
identical pattern texts appear again in src/pylogutil/util.py) -/

/-- Source `(?:(?<=[^0-9])|^)`: start of string, or the preceding character is not a
digit. -/
def lookBehindNonDigit : RE :=
  .look fun s pos =>
    pos == 0 ||
      (match s.get? (pos - 1) with
       | some c => !isDig c
       | none => false)

/-- Source `(?=[^0-9]|$)`: end of string, or the next character is not a digit. -/
def lookAheadNonDigit : RE :=
  .look fun s pos =>
    match s.get? pos with
    | some c => !isDig c
    | none => true

/-- Source `(?:(?<=[^0-9a-fA-F])|^)`. -/
def lookBehindNonHex : RE :=
  .look fun s pos =>
    pos == 0 ||
      (match s.get? (pos - 1) with
       | some c => !isHexD c
       | none => false)

/-- Source `(?=[^0-9a-fA-F]|$)`. -/
def lookAheadNonHex : RE :=
  .look fun s pos =>
    match s.get? pos with
    | some c => !isHexD c
    | none => true

/-- The core of the timestamp pattern: `(?:[0-9]{2}:){2}[0-9]{2}`. -/
def tsCore : RE :=
  .cat (rePow (.cat (rePow (.cls isDig) 2) (.cls (· = ':'))) 2) (rePow (.cls isDig) 2)

/-- The full `timestamp_filter` pattern. -/
def tsFull : RE := .cat lookBehindNonDigit (.cat tsCore lookAheadNonDigit)

/-- One IPv4 octet: `25[0-5]|2[0-4][0-9]|1[0-9]{2}|[1-9][0-9]|[0-9]`. -/
def octet : RE :=
  .alt (.cat (.cls (· = '2')) (.cat (.cls (· = '5')) (.cls isDig05)))
    (.alt (.cat (.cls (· = '2')) (.cat (.cls isDig04) (.cls isDig)))
      (.alt (.cat (.cls (· = '1')) (rePow (.cls isDig) 2))
        (.alt (.cat (.cls isDig19) (.cls isDig))
          (.cls isDig))))

/-- The core of the ipv4 pattern:
`(?:(?:25[0-5]|...|[0-9])\.){3}(?:25[0-5]|...|[0-9])`. -/
def ipv4Core : RE :=
  .cat (rePow (.cat octet (.cls (· = '.'))) 3) octet

/-- The full `ipv4_filter` pattern. -/
def ipv4Full : RE := .cat lookBehindNonDigit (.cat ipv4Core lookAheadNonDigit)

/-- Source `[0-9a-fA-F]{1,4}`. -/
def hex14 : RE := reRep (.cls isHexD) 1 4

/-- Source `[0-9a-fA-F]{0,4}`. -/
def hex04 : RE := reRep (.cls isHexD) 0 4

/-- Source `[1-9a-fA-F][0-9a-fA-F]{0,3}`: a hextet without leading zero. -/
def hexNZGroup : RE := .cat (.cls isHexNZ) (reRep (.cls isHexD) 0 3)

/-- Source `[0-9a-fA-F]{1,4}:`. -/
def hexColon : RE := .cat hex14 (.cls (· = ':'))

/-- The literal `::`. -/
def colonColon : RE := .cat (.cls (· = ':')) (.cls (· = ':'))

/-- Source `:[0-9a-fA-F]{0,4}`. -/
def colonHex04 : RE := .cat (.cls (· = ':')) hex04

/-- Source `:[1-9a-fA-F][0-9a-fA-F]{0,3}`. -/
def colonHexNZ : RE := .cat (.cls (· = ':')) hexNZGroup

/-- Alternative `(?:[0-9a-fA-F]{1,4}:){7,7}[0-9a-fA-F]{1,4}`. -/
def ipv6Alt1 : RE := .cat (rePow hexColon 7) hex14

/-- Alternative `(?:[0-9a-fA-F]{1,4}:){6,6}[1-9a-fA-F][0-9a-fA-F]{0,3}::`. -/
def ipv6Alt2 : RE := .cat (rePow hexColon 6) (.cat hexNZGroup colonColon)

/-- Alternative
`(?:[0-9a-fA-F]{1,4}:){5,5}[1-9a-fA-F][0-9a-fA-F]{0,3}::(?::[1-9a-fA-F][0-9a-fA-F]{0,3})?`. -/
def ipv6Alt3 : RE :=
  .cat (rePow hexColon 5) (.cat hexNZGroup (.cat colonColon (reOpt colonHexNZ)))

/-- The optional tail
`(?:[1-9a-fA-F][0-9a-fA-F]{0,3}(?::[0-9a-fA-F]{0,4}){0,k})?` shared by the
remaining `::` alternatives. -/
def ipv6Tail (k : Nat) : RE := reOpt (.cat hexNZGroup (reOptUpTo colonHex04 k))

/-- Alternative with 4 leading full hextets. -/
def ipv6Alt4 : RE :=
  .cat (rePow hexColon 4) (.cat hexNZGroup (.cat colonColon (ipv6Tail 1)))

/-- Alternative with 3 leading full hextets. -/
def ipv6Alt5 : RE :=
  .cat (rePow hexColon 3) (.cat hexNZGroup (.cat colonColon (ipv6Tail 2)))

/-- Alternative with 2 leading full hextets. -/
def ipv6Alt6 : RE :=
  .cat (rePow hexColon 2) (.cat hexNZGroup (.cat colonColon (ipv6Tail 3)))

/-- Alternative with 1 leading full hextet. -/
def ipv6Alt7 : RE :=
  .cat (rePow hexColon 1) (.cat hexNZGroup (.cat colonColon (ipv6Tail 4)))

/-- Alternative `[1-9a-fA-F][0-9a-fA-F]{0,3}::(?:...)?`. -/
def ipv6Alt8 : RE := .cat hexNZGroup (.cat colonColon (ipv6Tail 5))

/-- Alternative `::[1-9a-fA-F][0-9a-fA-F]{0,3}(?::[0-9a-fA-F]{0,4}){0,6}`
(the bare `::` is deliberately excluded by the source). -/
def ipv6Alt9 : RE := .cat colonColon (.cat hexNZGroup (reOptUpTo colonHex04 6))

/-- The core of the ipv6 pattern: the nine alternatives in source order. -/
def ipv6Core : RE :=
  altList [ipv6Alt1, ipv6Alt2, ipv6Alt3, ipv6Alt4, ipv6Alt5, ipv6Alt6, ipv6Alt7,
    ipv6Alt8, ipv6Alt9]

/-- The full `ipv6_filter` pattern. -/
def ipv6Full : RE := .cat lookBehindNonHex (.cat ipv6Core lookAheadNonHex)

/-! ## The replacement functions of `_linefilters.py` -/

/-- Source `timestamp_filter`'s replacer: `click.style(line, bold=True,
fg='bright_white')`. -/
def tsReplacer (line : List Char) : Option (List Seg) :=
  some [clickStyle ⟨true, false, false, some (.named "bright_white")⟩ line]

/-- Source `ipv4_filter`'s replacer: split on `'.'`, parse decimal octets, style the
matched text underlined in the derived 8-bit color. -/
def ipv4Replacer (line : List Char) : Option (List Seg) :=
  ((pySplit '.' line).mapM pyIntDec).map fun segs =>
    [clickStyle ⟨false, false, true,
      some (.idx (RgbConverter.from_int_list_8bit (segs.map Int.ofNat)))⟩ line]

/-- One hextet of `ipv6_filter`: `int(segment, 16) if segment else 0`. -/
def parseHextet (seg : List Char) : Option Nat :=
  if seg.isEmpty then some 0 else pyIntHex seg

/-- The hextet-section parse of `ipv6_filter`: split the matched text on the
first `::`; parse the colon-separated hextets of the leading section in base
16 with empty segments taken as `0`; when a `::` was present, append
`8 - (len(sections[0]) + len(sections[1]))` zero segments (a negative count
appends nothing, as `[0] * n` does) and then the parsed trailing section. -/
def ipv6Segments (line : List Char) : Option (List Nat) :=
  do
    let segs0 ← (pySplit ':' (pySplitOnceCC line).1).mapM parseHextet
    match (pySplitOnceCC line).2 with
    | none => pure segs0
    | some sec1 => do
      let segs1 ← (pySplit ':' sec1).mapM parseHextet
      pure (segs0 ++
        List.replicate
          (8 - ((pySplit ':' (pySplitOnceCC line).1).length + (pySplit ':' sec1).length)) 0 ++
        segs1)

/-- Source `ipv6_filter`'s replacer. -/
def ipv6Replacer (line : List Char) : Option (List Seg) :=
  (ipv6Segments line).map fun segs =>
    [clickStyle ⟨false, false, true,
      some (.idx (RgbConverter.from_int_list_8bit (segs.map Int.ofNat)))⟩ line]

/-- Source `timestamp_filter` as a line filter. -/
def tsFilterCall (line : List Char) : Option (Option (List Seg)) :=
  lrfCall tsFull tsReplacer line

/-- Source `ipv4_filter` as a line filter. -/
def ipv4FilterCall (line : List Char) : Option (Option (List Seg)) :=
  lrfCall ipv4Full ipv4Replacer line

/-- Source `ipv6_filter` as a line filter. -/
def ipv6FilterCall (line : List Char) : Option (Option (List Seg)) :=
  lrfCall ipv6Full ipv6Replacer line

/-! ## The duplicated filter stack in `src/pylogutil/util.py` -/

namespace UtilPy

/-- Source `Rgb._value_table_8bit`: the explicit literal tuple written out in
`util.py`. -/
def valueTable8bit : List Nat := [
  1, 2, 3, 4, 5, 6, 8, 9, 10, 11, 12, 13, 14, 16, 17, 18, 19, 20, 21, 22,
  23, 24, 25, 26, 27, 28, 29, 30, 31, 32, 33, 34, 35, 36, 37, 38, 39, 40, 41, 42,
  43, 44, 45, 46, 47, 48, 49, 50, 51, 52, 53, 54, 55, 56, 57, 58, 59, 60, 61, 62,
  63, 64, 65, 66, 67, 68, 69, 70, 71, 72, 73, 74, 75, 76, 77, 78, 79, 80, 81, 82,
  83, 84, 85, 86, 87, 88, 89, 90, 91, 92, 93, 94, 95, 96, 97, 98, 99, 100, 101, 102,
  103, 104, 105, 106, 107, 108, 109, 110, 111, 112, 113, 114, 115, 116, 117, 118, 119, 120, 121, 122,
  123, 124, 125, 126, 127, 128, 129, 130, 131, 132, 133, 134, 135, 136, 137, 138, 139, 140, 141, 142,
  143, 144, 145, 146, 147, 148, 149, 150, 151, 152, 153, 154, 155, 156, 157, 158, 159, 160, 161, 162,
  163, 164, 165, 166, 167, 168, 169, 170, 171, 172, 173, 174, 175, 176, 177, 178, 179, 180, 181, 182,
  183, 184, 185, 186, 187, 188, 189, 190, 191, 192, 193, 194, 195, 196, 197, 198, 199, 200, 201, 202,
  203, 204, 205, 206, 207, 208, 209, 210, 211, 212, 213, 214, 215, 216, 217, 218, 219, 220, 221, 222,
  223, 224, 225, 226, 227, 228, 229, 230]

/-- Source `Rgb._range8 = len(_value_table_8bit)`. -/
def range8 : Nat := valueTable8bit.length

/-- Source `Rgb.from_int_list_8bit` in `util.py`. -/
def from_int_list_8bit (lst : List Int) : Nat :=
  let idx := lst.foldl (fun acc i => pyMod (acc + i) (range8 : Int)) 0
  valueTable8bit.getD idx.toNat 0

/-- Source `util.py`'s `timestamp_filter` replacer: `click.style(line, italic=True)`
(same pattern text as `_linefilters.py`, different styling). -/
def tsReplacer (line : List Char) : Option (List Seg) :=
  some [clickStyle ⟨false, true, false, none⟩ line]

/-- Source `util.py`'s `ipv4_filter` replacer. -/
def ipv4Replacer (line : List Char) : Option (List Seg) :=
  ((pySplit '.' line).mapM pyIntDec).map fun segs =>
    [clickStyle ⟨false, false, true,
      some (.idx (from_int_list_8bit (segs.map Int.ofNat)))⟩ line]

/-- Source `util.py`'s `ipv6_filter` hextet parse: identical structure to
`_linefilters.py` except every segment is parsed with a bare `int(segment,
16)` - an empty segment raises `ValueError` instead of being taken as 0. -/
def ipv6Segments (line : List Char) : Option (List Nat) :=
  do
    let segs0 ← (pySplit ':' (pySplitOnceCC line).1).mapM pyIntHex
    match (pySplitOnceCC line).2 with
    | none => pure segs0
    | some sec1 => do
      let segs1 ← (pySplit ':' sec1).mapM pyIntHex
      pure (segs0 ++
        List.replicate
          (8 - ((pySplit ':' (pySplitOnceCC line).1).length + (pySplit ':' sec1).length)) 0 ++
        segs1)

/-- Source `util.py`'s `ipv6_filter` replacer. -/
def ipv6Replacer (line : List Char) : Option (List Seg) :=
  (ipv6Segments line).map fun segs =>
    [clickStyle ⟨false, false, true,
      some (.idx (from_int_list_8bit (segs.map Int.ofNat)))⟩ line]

/-- The `timestamp_filter` sub-filter as registered by `main` (the group key
stands for the `id(f)`-derived key, which is internal wiring). -/
def tsSub : SubFilter := ⟨"k_timestamp", tsFull, tsReplacer⟩

/-- The `ipv4_filter` sub-filter as registered by `main`. -/
def ipv4Sub : SubFilter := ⟨"k_ipv4", ipv4Full, ipv4Replacer⟩

/-- The `ipv6_filter` sub-filter as registered by `main`. -/
def ipv6Sub : SubFilter := ⟨"k_ipv6", ipv6Full, ipv6Replacer⟩

/-- Source `filtermap(func, iterable)`: apply `func` to each item, dropping items on
which it returns `None`; an exception inside `func` (outer `none`) aborts the
whole iteration. -/
def filtermap (func : List Char → Option (Option (List Seg))) :
    List (List Char) → Option (List (List Seg))
  | [] => some []
  | l :: ls => do
    let r ← func l
    let rest ← filtermap func ls
    match r with
    | none => pure rest
    | some segs => pure (segs :: rest)

/-- Drop trailing newline characters, `line.rstrip('\n')`. -/
def dropTrailingNL (u : List Char) : List Char :=
  (u.reverse.dropWhile (fun c => c = '\n')).reverse

/-- Source `line.rstrip('\n')` on a segment line, scanning the reversed segments: a
styled segment is never affected because its terminal-code encoding does not
end in a newline. -/
def rstripNLAux : List Seg → List Seg
  | [] => []
  | Seg.raw u :: rest =>
    let u' := dropTrailingNL u
    if u'.isEmpty then rstripNLAux rest else Seg.raw u' :: rest
  | s :: rest => s :: rest

/-- Source `line.rstrip('\n')` as performed by `main`'s echo loop. -/
def rstripNL (segs : List Seg) : List Seg := (rstripNLAux segs.reverse).reverse

/-- The command-line options of `main` after `click` parsing (`click` rejects
non-positive `--first`/`--last` before `main` runs, but `main` re-checks). -/
structure Args where
  first : Option Int
  last : Option Int
  timestamps : Bool
  ipv4 : Bool
  ipv6 : Bool

/-- Source `util.py`'s `main`: return immediately when neither `first` nor `last`
was given; otherwise build the composite of the enabled filters, filter the
input lines (iteration is modelled eagerly; no use in this development makes
an unconsumed suffix raise), keep the first `first` lines and the last `last`
lines of the remainder, and echo each kept line with `rstrip('\n')`.  The
result is the `none` on a filter exception, otherwise the echoed lines. -/
def mainModel (a : Args) (file : List (List Char)) : Option (List (List Seg)) :=
  if a.first = none ∧ a.last = none then some []
  else
    let baseFilters : List SubFilter :=
      (if a.timestamps then [tsSub] else []) ++
      (if a.ipv4 then [ipv4Sub] else []) ++
      (if a.ipv6 then [ipv6Sub] else [])
    do
      let lineIter ←
        if baseFilters.isEmpty then pure (file.map fun l => [Seg.raw l])
        else filtermap (compositeCall baseFilters) file
      let firstPart :=
        match a.first with
        | some f => if 0 < f then lineIter.take f.toNat else []
        | none => []
      let rest :=
        match a.first with
        | some f => if 0 < f then lineIter.drop f.toNat else lineIter
        | none => lineIter
      let lastPart :=
        match a.last with
        | some l => if 0 < l then rest.drop (rest.length - l.toNat) else []
        | none => []
      pure ((firstPart ++ lastPart).map rstripNL)

end UtilPy

/-! ## Language semantics of lookaround-free patterns

`Matches r u` is the standard language reading of a pattern: the texts `u`
that `r` can consume.  A lookaround consumes nothing (its condition is
dropped, which only widens the language - sound for the direction proved
below), and a named group matches what its body matches. -/

inductive Matches : RE → List Char → Prop where
  | eps : Matches .eps []
  | cls {p : Char → Bool} {c : Char} : p c = true → Matches (.cls p) [c]
  | look {cond : List Char → Nat → Bool} : Matches (.look cond) []
  | group {n : String} {r : RE} {u : List Char} : Matches r u → Matches (.group n r) u
  | cat {r1 r2 : RE} {u v : List Char} :
      Matches r1 u → Matches r2 v → Matches (.cat r1 r2) (u ++ v)
  | altL {r1 r2 : RE} {u : List Char} : Matches r1 u → Matches (.alt r1 r2) u
  | altR {r1 r2 : RE} {u : List Char} : Matches r2 u → Matches (.alt r1 r2) u

/-- Splitting an extracted range at an interior point. -/
theorem extract_append {s : List Char} {a m b : Nat} (h1 : a ≤ m) (h2 : m ≤ b) :
    extract s a b = extract s a m ++ extract s m b := by
  unfold extract
  have hb : b - a = (m - a) + (b - m) := by omega
  rw [hb, List.take_add]
  congr 2
  rw [List.drop_drop]
  congr 1
  omega

/-- An extracted range of length one is the character at its start. -/
theorem extract_single {s : List Char} {a : Nat} {c : Char} (h : s.get? a = some c) :
    extract s a (a + 1) = [c] := by
  have hlt : a < s.length := (List.get?_eq_some.mp h).1
  unfold extract
  rw [List.drop_eq_getElem_cons hlt]
  have h1 : a + 1 - a = 1 := by omega
  rw [h1, List.take_succ_cons, List.take_zero]
  have h2 := (List.get?_eq_some.mp h).2
  simp only [List.get_eq_getElem] at h2
  rw [h2]

/-- The empty extracted range. -/
theorem extract_self (s : List Char) (a : Nat) : extract s a a = [] := by
  unfold extract
  simp

/-- Soundness of the backtracking matcher with respect to the language
semantics: whenever `reMatch` succeeds, the continuation was invoked at an
end position such that the consumed range is in the pattern's language. -/
theorem reMatch_sound {r : RE} {s : List Char} :
    ∀ {pos : Nat} {g : Option String}
      {k : Nat → Option String → Option (Nat × Option String)} {res : Nat × Option String},
      pos ≤ s.length → reMatch s r pos g k = some res →
      ∃ stop g', pos ≤ stop ∧ stop ≤ s.length ∧ Matches r (extract s pos stop) ∧
        k stop g' = some res := by
  induction r with
  | eps =>
    intro pos g k res hpos h
    exact ⟨pos, g, le_refl _, hpos, by rw [extract_self]; exact .eps, h⟩
  | cls p =>
    intro pos g k res hpos h
    simp only [reMatch] at h
    cases hc : s.get? pos with
    | none => rw [hc] at h; exact absurd h (by simp)
    | some c =>
      simp only [hc] at h
      by_cases hp : p c
      · rw [if_pos hp] at h
        refine ⟨pos + 1, g, by omega, ?_, ?_, h⟩
        · have := (List.get?_eq_some.mp hc).1; omega
        · rw [extract_single hc]; exact .cls hp
      · rw [if_neg hp] at h; exact absurd h (by simp)
  | look cond =>
    intro pos g k res hpos h
    simp only [reMatch] at h
    by_cases hc : cond s pos
    · rw [if_pos hc] at h
      exact ⟨pos, g, le_refl _, hpos, by rw [extract_self]; exact .look, h⟩
    · rw [if_neg hc] at h; exact absurd h (by simp)
  | group n r ih =>
    intro pos g k res hpos h
    simp only [reMatch] at h
    obtain ⟨stop, g', h1, h2, h3, h4⟩ := ih hpos h
    exact ⟨stop, some n, h1, h2, .group h3, h4⟩
  | cat r1 r2 ih1 ih2 =>
    intro pos g k res hpos h
    simp only [reMatch] at h
    obtain ⟨m, g1, hm1, hm2, hm3, hm4⟩ := ih1 hpos h
    obtain ⟨stop, g2, hs1, hs2, hs3, hs4⟩ := ih2 hm2 hm4
    refine ⟨stop, g2, by omega, hs2, ?_, hs4⟩
    rw [extract_append hm1 hs1]
    exact .cat hm3 hs3
  | alt r1 r2 ih1 ih2 =>
    intro pos g k res hpos h
    simp only [reMatch] at h
    cases h1 : reMatch s r1 pos g k with
    | some res1 =>
      rw [h1] at h
      obtain ⟨stop, g', ha, hb, hc, hd⟩ := ih1 hpos h1
      cases h
      exact ⟨stop, g', ha, hb, .altL hc, hd⟩
    | none =>
      rw [h1] at h
      obtain ⟨stop, g', ha, hb, hc, hd⟩ := ih2 hpos h
      exact ⟨stop, g', ha, hb, .altR hc, hd⟩

/-- Executable whole-text match: `r` can consume exactly all of `t`. -/
def reFull (r : RE) (t : List Char) : Bool :=
  (reMatch t r 0 none fun p g => if p = t.length then some (p, g) else none).isSome

/-- A successful `reFull` puts the text in the pattern's language. -/
theorem reFull_matches {r : RE} {t : List Char} (h : reFull r t = true) : Matches r t := by
  unfold reFull at h
  rw [Option.isSome_iff_exists] at h
  obtain ⟨res, hres⟩ := h
  obtain ⟨stop, g', _, h2, h3, h4⟩ := reMatch_sound (Nat.zero_le _) hres
  by_cases hstop : stop = t.length
  · subst hstop
    have : extract t 0 t.length = t := by
      unfold extract
      simp
    rwa [this] at h3
  · rw [if_neg hstop] at h4; exact absurd h4 (by simp)

/-! ## Inversion lemmas for the language semantics -/

/-- Predicate: every character of `u` is a hex digit (hence `u` contains
neither `':'` nor `'.'`). -/
def AllHex (u : List Char) : Prop := ∀ c ∈ u, isHexD c = true

/-- Predicate: every character of `u` is a decimal digit. -/
def AllDig (u : List Char) : Prop := ∀ c ∈ u, isDig c = true

theorem matches_eps_inv {u : List Char} (h : Matches .eps u) : u = [] := by
  cases h; rfl

theorem matches_cls_inv {p : Char → Bool} {u : List Char} (h : Matches (.cls p) u) :
    ∃ c, u = [c] ∧ p c = true := by
  cases h with
  | cls hp => exact ⟨_, rfl, hp⟩

theorem matches_cat_inv {r1 r2 : RE} {w : List Char} (h : Matches (.cat r1 r2) w) :
    ∃ u v, w = u ++ v ∧ Matches r1 u ∧ Matches r2 v := by
  cases h with
  | cat h1 h2 => exact ⟨_, _, rfl, h1, h2⟩

theorem matches_alt_inv {r1 r2 : RE} {u : List Char} (h : Matches (.alt r1 r2) u) :
    Matches r1 u ∨ Matches r2 u := by
  cases h with
  | altL h1 => exact Or.inl h1
  | altR h2 => exact Or.inr h2

theorem matches_rePow_inv {r : RE} {n : Nat} {u : List Char}
    (h : Matches (rePow r n) u) :
    ∃ us : List (List Char), us.length = n ∧ (∀ v ∈ us, Matches r v) ∧ u = us.join := by
  induction n generalizing u with
  | zero =>
    have := matches_eps_inv h
    exact ⟨[], rfl, by simp, by simp [this]⟩
  | succ n ih =>
    obtain ⟨a, b, hab, ha, hb⟩ := matches_cat_inv h
    obtain ⟨us, h1, h2, h3⟩ := ih hb
    refine ⟨a :: us, by simp [h1], ?_, by simp [hab, h3]⟩
    intro v hv
    rw [List.mem_cons] at hv
    rcases hv with hv | hv
    · exact hv ▸ ha
    · exact h2 v hv

theorem matches_reOptUpTo_inv {r : RE} {n : Nat} {u : List Char}
    (h : Matches (reOptUpTo r n) u) :
    ∃ us : List (List Char), us.length ≤ n ∧ (∀ v ∈ us, Matches r v) ∧ u = us.join := by
  induction n generalizing u with
  | zero =>
    have := matches_eps_inv h
    exact ⟨[], by simp, by simp, by simp [this]⟩
  | succ n ih =>
    rcases matches_alt_inv h with h1 | h2
    · obtain ⟨a, b, hab, ha, hb⟩ := matches_cat_inv h1
      obtain ⟨us, hl, hm, hj⟩ := ih hb
      refine ⟨a :: us, by simp; omega, ?_, by simp [hab, hj]⟩
      intro v hv
      rw [List.mem_cons] at hv
      rcases hv with hv | hv
      · exact hv ▸ ha
      · exact hm v hv
    · have := matches_eps_inv h2
      exact ⟨[], by simp, by simp, by simp [this]⟩

theorem matches_reOpt_inv {r : RE} {u : List Char} (h : Matches (reOpt r) u) :
    u = [] ∨ Matches r u := by
  rcases matches_alt_inv h with h1 | h2
  · exact Or.inr h1
  · exact Or.inl (matches_eps_inv h2)

/-- A repetition of a character class is a string of such characters of the
repetition's exact length. -/
theorem matches_rePow_cls {p : Char → Bool} {n : Nat} {u : List Char}
    (h : Matches (rePow (.cls p) n) u) : u.length = n ∧ ∀ c ∈ u, p c = true := by
  obtain ⟨us, h1, h2, h3⟩ := matches_rePow_inv h
  subst h3
  constructor
  · rw [List.length_join]
    have : ∀ v ∈ us, v.length = 1 := by
      intro v hv
      obtain ⟨c, hc, _⟩ := matches_cls_inv (h2 v hv)
      simp [hc]
    rw [List.map_congr_left this]
    simp [h1]
  · intro c hc
    rw [List.mem_join] at hc
    obtain ⟨v, hv, hcv⟩ := hc
    obtain ⟨c', hc', hp⟩ := matches_cls_inv (h2 v hv)
    subst hc'
    simp at hcv
    exact hcv ▸ hp

/-- A bounded optional repetition of a character class is a string of such
characters of at most the bound's length. -/
theorem matches_reOptUpTo_cls {p : Char → Bool} {n : Nat} {u : List Char}
    (h : Matches (reOptUpTo (.cls p) n) u) : u.length ≤ n ∧ ∀ c ∈ u, p c = true := by
  obtain ⟨us, h1, h2, h3⟩ := matches_reOptUpTo_inv h
  subst h3
  constructor
  · rw [List.length_join]
    have hle : ∀ v ∈ us, v.length = 1 := by
      intro v hv
      obtain ⟨c, hc, _⟩ := matches_cls_inv (h2 v hv)
      simp [hc]
    rw [List.map_congr_left hle]
    simp
    omega
  · intro c hc
    rw [List.mem_join] at hc
    obtain ⟨v, hv, hcv⟩ := hc
    obtain ⟨c', hc', hp⟩ := matches_cls_inv (h2 v hv)
    subst hc'
    simp at hcv
    exact hcv ▸ hp

/-! ## Character-class facts -/

theorem isHexNZ_isHexD {c : Char} (h : isHexNZ c = true) : isHexD c = true := by
  simp only [isHexNZ, Bool.or_eq_true, Bool.and_eq_true, decide_eq_true_eq] at h
  simp only [isHexD, isDig, Bool.or_eq_true, Bool.and_eq_true, decide_eq_true_eq]
  omega

theorem isDig_isHexD {c : Char} (h : isDig c = true) : isHexD c = true := by
  simp only [isHexD, Bool.or_eq_true]
  exact Or.inl (Or.inl h)

theorem isHexD_ne_colon {c : Char} (h : isHexD c = true) : c ≠ ':' := by
  intro hc
  subst hc
  exact absurd h (by decide)

theorem isDig_ne_dot {c : Char} (h : isDig c = true) : c ≠ '.' := by
  intro hc
  subst hc
  exact absurd h (by decide)

theorem hexDigitVal_isSome {c : Char} (h : isHexD c = true) :
    ∃ v, hexDigitVal c = some v := by
  simp only [isHexD, isDig, Bool.or_eq_true, Bool.and_eq_true, decide_eq_true_eq] at h
  unfold hexDigitVal
  rcases h with (h | h) | h
  · rw [if_pos]
    · exact ⟨_, rfl⟩
    · simp only [isDig, Bool.and_eq_true, decide_eq_true_eq]
      omega
  all_goals
    rw [if_neg (by simp only [isDig, Bool.and_eq_true, decide_eq_true_eq]; omega)]
  · rw [if_pos (by simp only [Bool.and_eq_true, decide_eq_true_eq]; omega)]
    exact ⟨_, rfl⟩
  · rw [if_neg (by simp only [Bool.and_eq_true, decide_eq_true_eq]; omega)]
    rw [if_pos (by simp only [Bool.and_eq_true, decide_eq_true_eq]; omega)]
    exact ⟨_, rfl⟩

/-! ## Piece lemmas for the ipv6 pattern building blocks -/

theorem matches_reRep_cls {p : Char → Bool} {m n : Nat} {u : List Char}
    (h : Matches (reRep (.cls p) m n) u) : m ≤ u.length ∧ ∀ c ∈ u, p c = true := by
  obtain ⟨a, b, hab, ha, hb⟩ := matches_cat_inv h
  obtain ⟨ha1, ha2⟩ := matches_rePow_cls ha
  obtain ⟨hb1, hb2⟩ := matches_reOptUpTo_cls hb
  subst hab
  constructor
  · rw [List.length_append]
    omega
  · intro c hc
    rw [List.mem_append] at hc
    rcases hc with hc | hc
    · exact ha2 c hc
    · exact hb2 c hc

theorem matches_hex14 {u : List Char} (h : Matches hex14 u) : u ≠ [] ∧ AllHex u := by
  obtain ⟨h1, h2⟩ := matches_reRep_cls h
  refine ⟨?_, h2⟩
  intro h0
  rw [h0] at h1
  simp at h1

theorem matches_hex04 {u : List Char} (h : Matches hex04 u) : AllHex u :=
  (matches_reRep_cls h).2

theorem matches_hexNZGroup {u : List Char} (h : Matches hexNZGroup u) :
    u ≠ [] ∧ AllHex u := by
  obtain ⟨a, b, hab, ha, hb⟩ := matches_cat_inv h
  obtain ⟨c, hc, hp⟩ := matches_cls_inv ha
  obtain ⟨_, hb2⟩ := matches_reRep_cls hb
  subst hab hc
  rw [List.singleton_append]
  refine ⟨by simp, ?_⟩
  intro x hx
  rw [List.mem_cons] at hx
  rcases hx with hx | hx
  · exact hx ▸ isHexNZ_isHexD hp
  · exact hb2 x hx

theorem matches_colonColon {u : List Char} (h : Matches colonColon u) :
    u = [':', ':'] := by
  obtain ⟨a, b, hab, ha, hb⟩ := matches_cat_inv h
  obtain ⟨c1, hc1, hp1⟩ := matches_cls_inv ha
  obtain ⟨c2, hc2, hp2⟩ := matches_cls_inv hb
  rw [decide_eq_true_eq] at hp1 hp2
  subst hab hc1 hc2 hp1 hp2
  rfl

theorem matches_hexColon {u : List Char} (h : Matches hexColon u) :
    ∃ hp, u = hp ++ [':'] ∧ hp ≠ [] ∧ AllHex hp := by
  obtain ⟨a, b, hab, ha, hb⟩ := matches_cat_inv h
  obtain ⟨c, hc, hpc⟩ := matches_cls_inv hb
  rw [decide_eq_true_eq] at hpc
  obtain ⟨h1, h2⟩ := matches_hex14 ha
  subst hab hc hpc
  exact ⟨a, rfl, h1, h2⟩

theorem matches_colonHex04 {u : List Char} (h : Matches colonHex04 u) :
    ∃ q, u = ':' :: q ∧ AllHex q := by
  obtain ⟨a, b, hab, ha, hb⟩ := matches_cat_inv h
  obtain ⟨c, hc, hpc⟩ := matches_cls_inv ha
  rw [decide_eq_true_eq] at hpc
  subst hab hc hpc
  exact ⟨b, rfl, matches_hex04 hb⟩

theorem matches_colonHexNZ {u : List Char} (h : Matches colonHexNZ u) :
    ∃ q, u = ':' :: q ∧ q ≠ [] ∧ AllHex q := by
  obtain ⟨a, b, hab, ha, hb⟩ := matches_cat_inv h
  obtain ⟨c, hc, hpc⟩ := matches_cls_inv ha
  rw [decide_eq_true_eq] at hpc
  obtain ⟨h1, h2⟩ := matches_hexNZGroup hb
  subst hab hc hpc
  exact ⟨b, rfl, h1, h2⟩

/-! ## Separated piece lists and how the Python split functions act on them -/

/-- Pieces interleaved with a separator character: the string
`p1 sep p2 sep ... sep pn`. -/
def interSep (sep : Char) : List (List Char) → List Char
  | [] => []
  | [x] => x
  | x :: xs => x ++ sep :: interSep sep xs

theorem interSep_cons {sep : Char} {x : List Char} {xs : List (List Char)}
    (h : xs ≠ []) : interSep sep (x :: xs) = x ++ sep :: interSep sep xs := by
  cases xs with
  | nil => exact absurd rfl h
  | cons y ys => rfl

/-- Source `pySplit` never returns the empty list. -/
theorem pySplit_ne_nil (sep : Char) (u : List Char) : pySplit sep u ≠ [] := by
  induction u with
  | nil => simp [pySplit]
  | cons c rest ih =>
    unfold pySplit
    by_cases hc : c = sep
    · rw [if_pos hc]; simp
    · rw [if_neg hc]
      cases hr : pySplit sep rest with
      | nil => simp
      | cons p ps => simp

theorem pySplit_sep_cons (sep : Char) (u : List Char) :
    pySplit sep (sep :: u) = [] :: pySplit sep u := by
  simp [pySplit]

/-- Splitting a string that contains no separator yields that one piece. -/
theorem pySplit_nosep {sep : Char} {u : List Char} (h : ∀ c ∈ u, c ≠ sep) :
    pySplit sep u = [u] := by
  induction u with
  | nil => rfl
  | cons c rest ih =>
    simp only [pySplit]
    rw [if_neg (h c (by simp))]
    rw [ih fun x hx => h x (by simp [hx])]

/-- Splitting a separator-free piece followed by a separator peels off that
piece. -/
theorem pySplit_append_sep {sep : Char} {u v : List Char} (h : ∀ c ∈ u, c ≠ sep) :
    pySplit sep (u ++ sep :: v) = u :: pySplit sep v := by
  induction u with
  | nil => simp [pySplit_sep_cons]
  | cons c rest ih =>
    rw [List.cons_append]
    simp only [pySplit]
    rw [if_neg (h c (by simp))]
    rw [ih fun x hx => h x (by simp [hx])]

/-- Source `pySplit` inverts `interSep` on separator-free pieces. -/
theorem pySplit_interSep {sep : Char} {ps : List (List Char)} (hne : ps ≠ [])
    (h : ∀ p ∈ ps, ∀ c ∈ p, c ≠ sep) : pySplit sep (interSep sep ps) = ps := by
  induction ps with
  | nil => exact absurd rfl hne
  | cons x xs ih =>
    cases xs with
    | nil => exact pySplit_nosep (h x (by simp))
    | cons y ys =>
      rw [interSep_cons (by simp)]
      rw [pySplit_append_sep (h x (by simp))]
      rw [ih (by simp) fun p hp c hc => h p (by simp [hp]) c hc]

/-- Scanning for `::` steps over a hex piece unchanged. -/
theorem pySplitOnceCC_hex_append {u v : List Char} (h : AllHex u) :
    pySplitOnceCC (u ++ v) = (u ++ (pySplitOnceCC v).1, (pySplitOnceCC v).2) := by
  induction u with
  | nil => simp
  | cons c rest ih =>
    rw [List.cons_append]
    simp only [pySplitOnceCC]
    rw [if_neg]
    · rw [ih fun x hx => h x (by simp [hx])]
      simp
    · intro hcon
      exact isHexD_ne_colon (h c (by simp)) hcon.1

/-- Scanning for `::` steps over a single colon not followed by a colon. -/
theorem pySplitOnceCC_colon_cons {w : List Char} (h : w.head? ≠ some ':') :
    pySplitOnceCC (':' :: w) = (':' :: (pySplitOnceCC w).1, (pySplitOnceCC w).2) := by
  simp only [pySplitOnceCC]
  rw [if_neg]
  intro hcon
  exact h hcon.2

/-- The scan fires on a leading `::`. -/
theorem pySplitOnceCC_cc (T : List Char) :
    pySplitOnceCC (':' :: ':' :: T) = ([], some T) := by
  simp [pySplitOnceCC]

/-- The head of a nonempty hex piece followed by anything is a hex digit. -/
theorem head_hex_append {u v : List Char} (hne : u ≠ []) (h : AllHex u) :
    ∃ c, (u ++ v).head? = some c ∧ isHexD c = true := by
  cases u with
  | nil => exact absurd rfl hne
  | cons c rest => exact ⟨c, by simp, h c (by simp)⟩

/-- The head of a rendered nonempty piece list (pieces nonempty hex) is a
hex digit, also with anything appended. -/
theorem interSep_head_hex {ps : List (List Char)} {v : List Char} (hne : ps ≠ [])
    (h : ∀ p ∈ ps, p ≠ [] ∧ AllHex p) :
    ∃ c, (interSep ':' ps ++ v).head? = some c ∧ isHexD c = true := by
  cases ps with
  | nil => exact absurd rfl hne
  | cons x xs =>
    cases xs with
    | nil => exact head_hex_append (h x (by simp)).1 (h x (by simp)).2
    | cons y ys =>
      rw [interSep_cons (by simp), List.append_assoc]
      exact head_hex_append (h x (by simp)).1 (h x (by simp)).2

/-- Scanning a colon-separated list of nonempty hex pieces followed by `::`
splits exactly at that `::`. -/
theorem pySplitOnceCC_interSep_cc {ps : List (List Char)} {T : List Char}
    (hne : ps ≠ []) (h : ∀ p ∈ ps, p ≠ [] ∧ AllHex p) :
    pySplitOnceCC (interSep ':' ps ++ ':' :: ':' :: T) = (interSep ':' ps, some T) := by
  induction ps with
  | nil => exact absurd rfl hne
  | cons x xs ih =>
    cases xs with
    | nil =>
      show pySplitOnceCC (x ++ ':' :: ':' :: T) = (x, some T)
      rw [pySplitOnceCC_hex_append (h x (by simp)).2, pySplitOnceCC_cc]
      simp
    | cons y ys =>
      rw [interSep_cons (by simp), List.append_assoc, List.cons_append]
      rw [pySplitOnceCC_hex_append (h x (by simp)).2]
      rw [pySplitOnceCC_colon_cons]
      · rw [ih (by simp) fun p hp => h p (by simp [hp])]
      · obtain ⟨c, hc1, hc2⟩ := @interSep_head_hex (y :: ys) (':' :: ':' :: T)
          (by simp) (fun p hp => h p (by simp [hp]))
        rw [hc1]
        intro hcon
        rw [Option.some_inj] at hcon
        exact isHexD_ne_colon hc2 hcon

/-- Scanning a colon-separated list of nonempty hex pieces with no `::`
behind it finds nothing. -/
theorem pySplitOnceCC_interSep_none {ps : List (List Char)} (hne : ps ≠ [])
    (h : ∀ p ∈ ps, p ≠ [] ∧ AllHex p) :
    pySplitOnceCC (interSep ':' ps) = (interSep ':' ps, none) := by
  induction ps with
  | nil => exact absurd rfl hne
  | cons x xs ih =>
    cases xs with
    | nil =>
      show pySplitOnceCC x = (x, none)
      have := pySplitOnceCC_hex_append (v := []) (h x (by simp)).2
      simpa [pySplitOnceCC] using this
    | cons y ys =>
      rw [interSep_cons (by simp)]
      rw [pySplitOnceCC_hex_append (h x (by simp)).2]
      rw [pySplitOnceCC_colon_cons]
      · rw [ih (by simp) fun p hp => h p (by simp [hp])]
      · obtain ⟨c, hc1, hc2⟩ := @interSep_head_hex (y :: ys) []
          (by simp) (fun p hp => h p (by simp [hp]))
        rw [List.append_nil] at hc1
        rw [hc1]
        intro hcon
        rw [Option.some_inj] at hcon
        exact isHexD_ne_colon hc2 hcon

/-! ## Structured decomposition of the ipv6 alternatives -/

/-- A run of `m` full hextets each followed by a colon, with composition onto
any trailing string. -/
theorem matches_rePow_hexColon {m : Nat} {u : List Char}
    (h : Matches (rePow hexColon m) u) :
    ∃ hs : List (List Char), hs.length = m ∧ (∀ x ∈ hs, x ≠ [] ∧ AllHex x) ∧
      ∀ w, u ++ w = interSep ':' (hs ++ [w]) := by
  induction m generalizing u with
  | zero =>
    have hu := matches_eps_inv h
    subst hu
    exact ⟨[], rfl, by simp, fun w => by simp [interSep]⟩
  | succ m ih =>
    obtain ⟨a, b, hab, ha, hb⟩ := matches_cat_inv h
    obtain ⟨hp, hahp, hpne, hphex⟩ := matches_hexColon ha
    obtain ⟨hs, h1, h2, h3⟩ := ih hb
    subst hab hahp
    refine ⟨hp :: hs, by simp [h1], ?_, ?_⟩
    · intro x hx
      rw [List.mem_cons] at hx
      rcases hx with hx | hx
      · exact hx ▸ ⟨hpne, hphex⟩
      · exact h2 x hx
    · intro w
      rw [List.append_assoc, List.append_assoc, List.singleton_append, h3 w]
      rw [List.cons_append, interSep_cons (by simp)]

/-- A bounded run of `:hextet?` groups, composed onto a leading piece. -/
theorem matches_reOptUpTo_colonHex04 {k : Nat} {u : List Char}
    (h : Matches (reOptUpTo colonHex04 k) u) :
    ∃ qs : List (List Char), qs.length ≤ k ∧ (∀ q ∈ qs, AllHex q) ∧
      ∀ g, g ++ u = interSep ':' (g :: qs) := by
  induction k generalizing u with
  | zero =>
    have hu := matches_eps_inv h
    subst hu
    exact ⟨[], by simp, by simp, fun g => by simp [interSep]⟩
  | succ k ih =>
    rcases matches_alt_inv h with h1 | h2
    · obtain ⟨a, b, hab, ha, hb⟩ := matches_cat_inv h1
      obtain ⟨q, haq, hqhex⟩ := matches_colonHex04 ha
      obtain ⟨qs, hl, hm, hj⟩ := ih hb
      subst hab haq
      refine ⟨q :: qs, by simp; omega, ?_, ?_⟩
      · intro x hx
        rw [List.mem_cons] at hx
        rcases hx with hx | hx
        · exact hx ▸ hqhex
        · exact hm x hx
      · intro g
        rw [List.cons_append]
        rw [interSep_cons (by simp), ← hj q]
    · have hu := matches_eps_inv h2
      subst hu
      exact ⟨[], by simp, by simp, fun g => by simp [interSep]⟩

/-- The optional hextet tail after a `::`. -/
theorem matches_ipv6Tail {k : Nat} {T : List Char} (h : Matches (ipv6Tail k) T) :
    T = [] ∨ ∃ g qs, g ≠ [] ∧ AllHex g ∧ qs.length ≤ k ∧ (∀ q ∈ qs, AllHex q) ∧
      T = interSep ':' (g :: qs) := by
  rcases matches_reOpt_inv h with h0 | h1
  · exact Or.inl h0
  · obtain ⟨a, b, hab, ha, hb⟩ := matches_cat_inv h1
    obtain ⟨hane, hahex⟩ := matches_hexNZGroup ha
    obtain ⟨qs, hl, hm, hj⟩ := matches_reOptUpTo_colonHex04 hb
    subst hab
    exact Or.inr ⟨a, qs, hane, hahex, hl, hm, hj a⟩

/-! ## Parse success lemmas -/

/-- Source `int(u, 16)` succeeds on a nonempty all-hex string. -/
theorem pyIntHex_isSome {u : List Char} (hne : u ≠ []) (h : AllHex u) :
    ∃ v, pyIntHex u = some v := by
  unfold pyIntHex
  rw [if_neg (by simpa using hne)]
  suffices hgen : ∀ (w : List Char) (a : Nat), (∀ c ∈ w, isHexD c = true) →
      ∃ v, w.foldl (fun acc c => acc.bind fun a => (hexDigitVal c).map fun v => 16 * a + v)
        (some a) = some v by
    exact hgen u 0 h
  intro w
  induction w with
  | nil => exact fun a _ => ⟨a, rfl⟩
  | cons c rest ih =>
    intro a hw
    obtain ⟨v, hv⟩ := hexDigitVal_isSome (hw c (by simp))
    rw [List.foldl_cons]
    have hstep : ((some a).bind fun x => (hexDigitVal c).map fun w => 16 * x + w) =
        some (16 * a + v) := by
      rw [hv]
      rfl
    rw [hstep]
    exact ih (16 * a + v) fun x hx => hw x (by simp [hx])

/-- Source `parseHextet` succeeds on any all-hex (possibly empty) piece. -/
theorem parseHextet_isSome {p : List Char} (h : AllHex p) :
    ∃ v, parseHextet p = some v := by
  unfold parseHextet
  by_cases hp : p.isEmpty
  · rw [if_pos hp]
    exact ⟨0, rfl⟩
  · rw [if_neg hp]
    exact pyIntHex_isSome (by simpa using hp) h

/-- Mapping `parseHextet` over all-hex pieces succeeds and preserves the
count. -/
theorem mapM_parseHextet {ps : List (List Char)} (h : ∀ p ∈ ps, AllHex p) :
    ∃ vs : List Nat, ps.mapM parseHextet = some vs ∧ vs.length = ps.length := by
  induction ps with
  | nil => exact ⟨[], rfl, rfl⟩
  | cons p ps ih =>
    obtain ⟨v, hv⟩ := parseHextet_isSome (h p (by simp))
    obtain ⟨vs, hvs, hlen⟩ := ih fun x hx => h x (by simp [hx])
    refine ⟨v :: vs, ?_, by simp [hlen]⟩
    rw [List.mapM_cons, hv, hvs]
    rfl

/-- When the matched text splits at a `::` into all-hex colon-pieces with at
most 8 pieces in total, the hextet parse succeeds with exactly 8 segments. -/
theorem ipv6Segments_eight {t s0 s1 : List Char}
    (hsplit : pySplitOnceCC t = (s0, some s1))
    (h0 : ∀ p ∈ pySplit ':' s0, AllHex p)
    (h1 : ∀ p ∈ pySplit ':' s1, AllHex p)
    (hlen : (pySplit ':' s0).length + (pySplit ':' s1).length ≤ 8) :
    ∃ segs, ipv6Segments t = some segs ∧ segs.length = 8 := by
  obtain ⟨vs0, hvs0, hlen0⟩ := mapM_parseHextet h0
  obtain ⟨vs1, hvs1, hlen1⟩ := mapM_parseHextet h1
  refine ⟨vs0 ++ List.replicate (8 - ((pySplit ':' s0).length + (pySplit ':' s1).length)) 0 ++ vs1, ?_, ?_⟩
  · unfold ipv6Segments
    rw [hsplit]
    simp only [hvs0, hvs1, Option.bind_eq_bind, Option.bind_some]
    rfl
  · simp only [List.length_append, List.length_replicate]
    omega

/-- When the matched text has no `::`, all-hex colon-pieces and exactly 8
pieces parse to exactly 8 segments. -/
theorem ipv6Segments_nocc {t : List Char}
    (hsplit : pySplitOnceCC t = (t, none))
    (h0 : ∀ p ∈ pySplit ':' t, AllHex p)
    (hlen : (pySplit ':' t).length = 8) :
    ∃ segs, ipv6Segments t = some segs ∧ segs.length = 8 := by
  obtain ⟨vs0, hvs0, hlen0⟩ := mapM_parseHextet h0
  refine ⟨vs0, ?_, by omega⟩
  unfold ipv6Segments
  rw [hsplit]
  simp only [hvs0, Option.bind_eq_bind, Option.bind_some]
  rfl

/-- Any matched text of the shape `h1:...:hm:g::T` - nonempty hex pieces
before the `::`, and `T` either empty or itself a colon-separated list of
all-hex (possibly empty) pieces - parses to exactly 8 segments provided the
total piece count is at most 8. -/
theorem ipv6Segments_shape {hs : List (List Char)} {g T : List Char}
    (hhs : ∀ x ∈ hs, x ≠ [] ∧ AllHex x) (hgne : g ≠ []) (hghex : AllHex g)
    (hT : (T = [] ∧ hs.length + 2 ≤ 8) ∨
      ∃ g' qs, AllHex g' ∧ (∀ q ∈ qs, AllHex q) ∧ T = interSep ':' (g' :: qs) ∧
        hs.length + 2 + qs.length ≤ 8) :
    ∃ segs, ipv6Segments (interSep ':' (hs ++ [g]) ++ ':' :: ':' :: T) = some segs ∧
      segs.length = 8 := by
  have hps : ∀ p ∈ hs ++ [g], p ≠ [] ∧ AllHex p := by
    intro p hp
    rw [List.mem_append] at hp
    rcases hp with hp | hp
    · exact hhs p hp
    · rw [List.mem_singleton] at hp
      exact hp ▸ ⟨hgne, hghex⟩
  have hsplit := pySplitOnceCC_interSep_cc (T := T) (by simp) hps
  have hps0 : pySplit ':' (interSep ':' (hs ++ [g])) = hs ++ [g] :=
    pySplit_interSep (by simp) fun p hp c hc => isHexD_ne_colon ((hps p hp).2 c hc)
  rcases hT with ⟨hTnil, hcount⟩ | ⟨g', qs, hg', hqs, hTeq, hcount⟩
  · subst hTnil
    refine ipv6Segments_eight hsplit ?_ ?_ ?_
    · rw [hps0]
      intro p hp
      rw [List.mem_append] at hp
      rcases hp with hp | hp
      · exact (hhs p hp).2
      · rw [List.mem_singleton] at hp
        exact hp ▸ hghex
    · intro p hp
      simp only [pySplit] at hp
      rw [List.mem_singleton] at hp
      subst hp
      intro c hc
      simp at hc
    · rw [hps0]
      simp only [pySplit, List.length_append, List.length_singleton, List.length_cons,
        List.length_nil]
      omega
  · subst hTeq
    have hps1 : pySplit ':' (interSep ':' (g' :: qs)) = g' :: qs :=
      pySplit_interSep (by simp) ?_
    · refine ipv6Segments_eight hsplit ?_ ?_ ?_
      · rw [hps0]
        intro p hp
        rw [List.mem_append] at hp
        rcases hp with hp | hp
        · exact (hhs p hp).2
        · rw [List.mem_singleton] at hp
          exact hp ▸ hghex
      · rw [hps1]
        intro p hp
        rw [List.mem_cons] at hp
        rcases hp with hp | hp
        · exact hp ▸ hg'
        · exact hqs p hp
      · rw [hps0, hps1]
        simp only [List.length_append, List.length_singleton, List.length_cons,
          List.length_nil]
        omega
    · intro p hp c hc
      rw [List.mem_cons] at hp
      rcases hp with hp | hp
      · exact isHexD_ne_colon (hg' c (hp ▸ hc))
      · exact isHexD_ne_colon (hqs p hp c hc)

/-- A full (no `::`) match of exactly 8 nonempty hex pieces parses to exactly
8 segments. -/
theorem ipv6Segments_full {ps : List (List Char)}
    (h : ∀ p ∈ ps, p ≠ [] ∧ AllHex p) (hlen : ps.length = 8) :
    ∃ segs, ipv6Segments (interSep ':' ps) = some segs ∧ segs.length = 8 := by
  have hne : ps ≠ [] := by
    intro h0
    rw [h0] at hlen
    simp at hlen
  have hps : pySplit ':' (interSep ':' ps) = ps :=
    pySplit_interSep hne fun p hp c hc => isHexD_ne_colon ((h p hp).2 c hc)
  refine ipv6Segments_nocc (pySplitOnceCC_interSep_none hne h) ?_ (by rw [hps, hlen])
  rw [hps]
  exact fun p hp => (h p hp).2

/-- A match beginning with `::` (alternative 9) parses to exactly 8
segments. -/
theorem ipv6Segments_ccFirst {g : List Char} {qs : List (List Char)}
    (hgne : g ≠ []) (hghex : AllHex g) (hqs : ∀ q ∈ qs, AllHex q)
    (hcount : qs.length ≤ 6) :
    ∃ segs, ipv6Segments (':' :: ':' :: interSep ':' (g :: qs)) = some segs ∧
      segs.length = 8 := by
  have hsplit := pySplitOnceCC_cc (interSep ':' (g :: qs))
  have hps1 : pySplit ':' (interSep ':' (g :: qs)) = g :: qs := by
    refine pySplit_interSep (by simp) ?_
    intro p hp c hc
    rw [List.mem_cons] at hp
    rcases hp with hp | hp
    · exact isHexD_ne_colon (hghex c (hp ▸ hc))
    · exact isHexD_ne_colon (hqs p hp c hc)
  refine ipv6Segments_eight hsplit ?_ ?_ ?_
  · intro p hp
    simp only [pySplit] at hp
    rw [List.mem_singleton] at hp
    subst hp
    intro c hc
    simp at hc
  · rw [hps1]
    intro p hp
    rw [List.mem_cons] at hp
    rcases hp with hp | hp
    · exact hp ▸ hghex
    · exact hqs p hp
  · rw [hps1]
    simp only [pySplit, List.length_cons, List.length_nil]
    omega

/-- Every text in the language of the ipv6 core pattern parses to exactly 8
segments. -/
theorem matches_ipv6Core_segments {t : List Char} (h : Matches ipv6Core t) :
    ∃ segs, ipv6Segments t = some segs ∧ segs.length = 8 := by
  rcases matches_alt_inv h with h1 | h
  · -- alternative 1: eight full hextets, no `::`
    obtain ⟨u, v, ht, hu, hv⟩ := matches_cat_inv h1
    obtain ⟨hs, hslen, hsprops, h3⟩ := matches_rePow_hexColon hu
    obtain ⟨hvne, hvhex⟩ := matches_hex14 hv
    subst ht
    rw [h3 v]
    refine ipv6Segments_full ?_ (by simp [hslen])
    intro p hp
    rw [List.mem_append] at hp
    rcases hp with hp | hp
    · exact hsprops p hp
    · rw [List.mem_singleton] at hp
      exact hp ▸ ⟨hvne, hvhex⟩
  rcases matches_alt_inv h with h2 | h
  · -- alternative 2: six full hextets, a nonzero hextet, then a final `::`
    obtain ⟨u, w, ht, hu, hw⟩ := matches_cat_inv h2
    obtain ⟨hs, hslen, hsprops, h3⟩ := matches_rePow_hexColon hu
    obtain ⟨a, cc, hweq, ha, hcc⟩ := matches_cat_inv hw
    have hcc2 := matches_colonColon hcc
    obtain ⟨hane, hahex⟩ := matches_hexNZGroup ha
    subst ht hweq hcc2
    rw [← List.append_assoc, h3 a]
    exact ipv6Segments_shape hsprops hane hahex (Or.inl ⟨rfl, by omega⟩)
  rcases matches_alt_inv h with h3' | h
  · -- alternative 3: five full hextets, `g::` and optionally `:g`
    obtain ⟨u, w, ht, hu, hw⟩ := matches_cat_inv h3'
    obtain ⟨hs, hslen, hsprops, h3⟩ := matches_rePow_hexColon hu
    obtain ⟨a, w2, hweq, ha, hw2⟩ := matches_cat_inv hw
    obtain ⟨cc, T, hccT, hcc, hT⟩ := matches_cat_inv hw2
    have hcc2 := matches_colonColon hcc
    obtain ⟨hane, hahex⟩ := matches_hexNZGroup ha
    subst ht hweq hccT hcc2
    rw [← List.append_assoc, ← List.append_assoc, h3 a, List.append_assoc]
    refine ipv6Segments_shape hsprops hane hahex ?_
    rcases matches_reOpt_inv hT with hTnil | hTm
    · exact Or.inl ⟨hTnil, by omega⟩
    · obtain ⟨q, hTeq, hqne, hqhex⟩ := matches_colonHexNZ hTm
      refine Or.inr ⟨[], [q], by intro c hc; simp at hc, ?_, ?_,
        by simp only [List.length_singleton]; omega⟩
      · intro x hx
        rw [List.mem_singleton] at hx
        exact hx ▸ hqhex
      · rw [hTeq]
        rfl
  rcases matches_alt_inv h with h4 | h
  · -- alternative 4: four full hextets, `g::`, optional hextet tail
    obtain ⟨u, w, ht, hu, hw⟩ := matches_cat_inv h4
    obtain ⟨hs, hslen, hsprops, h3⟩ := matches_rePow_hexColon hu
    obtain ⟨a, w2, hweq, ha, hw2⟩ := matches_cat_inv hw
    obtain ⟨cc, T, hccT, hcc, hT⟩ := matches_cat_inv hw2
    have hcc2 := matches_colonColon hcc
    obtain ⟨hane, hahex⟩ := matches_hexNZGroup ha
    subst ht hweq hccT hcc2
    rw [← List.append_assoc, ← List.append_assoc, h3 a, List.append_assoc]
    refine ipv6Segments_shape hsprops hane hahex ?_
    rcases matches_ipv6Tail hT with hTnil | ⟨g', qs, hg'ne, hg'hex, hqslen, hqshex, hTeq⟩
    · exact Or.inl ⟨hTnil, by omega⟩
    · exact Or.inr ⟨g', qs, hg'hex, hqshex, hTeq, by omega⟩
  rcases matches_alt_inv h with h5 | h
  · -- alternative 5: three full hextets
    obtain ⟨u, w, ht, hu, hw⟩ := matches_cat_inv h5
    obtain ⟨hs, hslen, hsprops, h3⟩ := matches_rePow_hexColon hu
    obtain ⟨a, w2, hweq, ha, hw2⟩ := matches_cat_inv hw
    obtain ⟨cc, T, hccT, hcc, hT⟩ := matches_cat_inv hw2
    have hcc2 := matches_colonColon hcc
    obtain ⟨hane, hahex⟩ := matches_hexNZGroup ha
    subst ht hweq hccT hcc2
    rw [← List.append_assoc, ← List.append_assoc, h3 a, List.append_assoc]
    refine ipv6Segments_shape hsprops hane hahex ?_
    rcases matches_ipv6Tail hT with hTnil | ⟨g', qs, hg'ne, hg'hex, hqslen, hqshex, hTeq⟩
    · exact Or.inl ⟨hTnil, by omega⟩
    · exact Or.inr ⟨g', qs, hg'hex, hqshex, hTeq, by omega⟩
  rcases matches_alt_inv h with h6 | h
  · -- alternative 6: two full hextets
    obtain ⟨u, w, ht, hu, hw⟩ := matches_cat_inv h6
    obtain ⟨hs, hslen, hsprops, h3⟩ := matches_rePow_hexColon hu
    obtain ⟨a, w2, hweq, ha, hw2⟩ := matches_cat_inv hw
    obtain ⟨cc, T, hccT, hcc, hT⟩ := matches_cat_inv hw2
    have hcc2 := matches_colonColon hcc
    obtain ⟨hane, hahex⟩ := matches_hexNZGroup ha
    subst ht hweq hccT hcc2
    rw [← List.append_assoc, ← List.append_assoc, h3 a, List.append_assoc]
    refine ipv6Segments_shape hsprops hane hahex ?_
    rcases matches_ipv6Tail hT with hTnil | ⟨g', qs, hg'ne, hg'hex, hqslen, hqshex, hTeq⟩
    · exact Or.inl ⟨hTnil, by omega⟩
    · exact Or.inr ⟨g', qs, hg'hex, hqshex, hTeq, by omega⟩
  rcases matches_alt_inv h with h7 | h
  · -- alternative 7: one full hextet
    obtain ⟨u, w, ht, hu, hw⟩ := matches_cat_inv h7
    obtain ⟨hs, hslen, hsprops, h3⟩ := matches_rePow_hexColon hu
    obtain ⟨a, w2, hweq, ha, hw2⟩ := matches_cat_inv hw
    obtain ⟨cc, T, hccT, hcc, hT⟩ := matches_cat_inv hw2
    have hcc2 := matches_colonColon hcc
    obtain ⟨hane, hahex⟩ := matches_hexNZGroup ha
    subst ht hweq hccT hcc2
    rw [← List.append_assoc, ← List.append_assoc, h3 a, List.append_assoc]
    refine ipv6Segments_shape hsprops hane hahex ?_
    rcases matches_ipv6Tail hT with hTnil | ⟨g', qs, hg'ne, hg'hex, hqslen, hqshex, hTeq⟩
    · exact Or.inl ⟨hTnil, by omega⟩
    · exact Or.inr ⟨g', qs, hg'hex, hqshex, hTeq, by omega⟩
  rcases matches_alt_inv h with h8 | h9
  · -- alternative 8: `g::` with optional hextet tail
    obtain ⟨a, w2, hweq, ha, hw2⟩ := matches_cat_inv h8
    obtain ⟨cc, T, hccT, hcc, hT⟩ := matches_cat_inv hw2
    have hcc2 := matches_colonColon hcc
    obtain ⟨hane, hahex⟩ := matches_hexNZGroup ha
    subst hweq hccT hcc2
    refine @ipv6Segments_shape [] a T (by simp) hane hahex ?_
    rcases matches_ipv6Tail hT with hTnil | ⟨g', qs, hg'ne, hg'hex, hqslen, hqshex, hTeq⟩
    · exact Or.inl ⟨hTnil, by simp only [List.length_nil]; omega⟩
    · exact Or.inr ⟨g', qs, hg'hex, hqshex, hTeq, by simp only [List.length_nil]; omega⟩
  · -- alternative 9: leading `::`
    obtain ⟨cc, w, hccw, hcc, hw⟩ := matches_cat_inv h9
    obtain ⟨a, r, hweq, ha, hr⟩ := matches_cat_inv hw
    have hcc2 := matches_colonColon hcc
    obtain ⟨hane, hahex⟩ := matches_hexNZGroup ha
    obtain ⟨qs, hqslen, hqshex, hj⟩ := matches_reOptUpTo_colonHex04 hr
    subst hccw hweq hcc2
    rw [hj a]
    exact ipv6Segments_ccFirst hane hahex hqshex (by omega)

/-! ## The ipv4 octet analysis -/

theorem isDig05_isDig {c : Char} (h : isDig05 c = true) : isDig c = true := by
  simp only [isDig05, Bool.and_eq_true, decide_eq_true_eq] at h
  simp only [isDig, Bool.and_eq_true, decide_eq_true_eq]
  omega

theorem isDig04_isDig {c : Char} (h : isDig04 c = true) : isDig c = true := by
  simp only [isDig04, Bool.and_eq_true, decide_eq_true_eq] at h
  simp only [isDig, Bool.and_eq_true, decide_eq_true_eq]
  omega

theorem isDig19_isDig {c : Char} (h : isDig19 c = true) : isDig c = true := by
  simp only [isDig19, Bool.and_eq_true, decide_eq_true_eq] at h
  simp only [isDig, Bool.and_eq_true, decide_eq_true_eq]
  omega

theorem pyIntDec_one {a : Char} (h : isDig a = true) :
    pyIntDec [a] = some (a.toNat - 48) := by
  simp [pyIntDec, decDigitVal, h]

theorem pyIntDec_two {a b : Char} (ha : isDig a = true) (hb : isDig b = true) :
    pyIntDec [a, b] = some (10 * (a.toNat - 48) + (b.toNat - 48)) := by
  simp [pyIntDec, decDigitVal, ha, hb]

theorem pyIntDec_three {a b c : Char} (ha : isDig a = true) (hb : isDig b = true)
    (hc : isDig c = true) :
    pyIntDec [a, b, c] =
      some (10 * (10 * (a.toNat - 48) + (b.toNat - 48)) + (c.toNat - 48)) := by
  simp [pyIntDec, decDigitVal, ha, hb, hc]

/-- Every text in the language of the octet pattern is a digit string whose
decimal value is at most 255. -/
theorem matches_octet {u : List Char} (h : Matches octet u) :
    AllDig u ∧ ∃ v, pyIntDec u = some v ∧ v ≤ 255 := by
  rcases matches_alt_inv h with hb | h
  · -- 25[0-5]
    obtain ⟨u1, w, hu, h1, hw⟩ := matches_cat_inv hb
    obtain ⟨c1, hc1, hp1⟩ := matches_cls_inv h1
    obtain ⟨u2, u3, hw2, h2, h3⟩ := matches_cat_inv hw
    obtain ⟨c2, hc2, hp2⟩ := matches_cls_inv h2
    obtain ⟨c3, hc3, hp3⟩ := matches_cls_inv h3
    rw [decide_eq_true_eq] at hp1 hp2
    subst hu hw2 hc1 hc2 hc3 hp1 hp2
    have hd3 := isDig05_isDig hp3
    have hb3 : c3.toNat ≤ 53 := by
      simp only [isDig05, Bool.and_eq_true, decide_eq_true_eq] at hp3
      omega
    refine ⟨?_, ?_⟩
    · intro x hx
      simp only [List.singleton_append, List.cons_append, List.nil_append, List.mem_cons,
        List.not_mem_nil, or_false] at hx
      rcases hx with rfl | rfl | rfl
      · decide
      · decide
      · exact hd3
    · refine ⟨250 + (c3.toNat - 48), ?_, by omega⟩
      have := pyIntDec_three (a := '2') (b := '5') (c := c3) (by decide) (by decide) hd3
      simpa using this
  rcases matches_alt_inv h with hb | h
  · -- 2[0-4][0-9]
    obtain ⟨u1, w, hu, h1, hw⟩ := matches_cat_inv hb
    obtain ⟨c1, hc1, hp1⟩ := matches_cls_inv h1
    obtain ⟨u2, u3, hw2, h2, h3⟩ := matches_cat_inv hw
    obtain ⟨c2, hc2, hp2⟩ := matches_cls_inv h2
    obtain ⟨c3, hc3, hp3⟩ := matches_cls_inv h3
    rw [decide_eq_true_eq] at hp1
    subst hu hw2 hc1 hc2 hc3 hp1
    have hd2 := isDig04_isDig hp2
    have hb2 : c2.toNat ≤ 52 := by
      simp only [isDig04, Bool.and_eq_true, decide_eq_true_eq] at hp2
      omega
    have hb3 : c3.toNat ≤ 57 ∧ 48 ≤ c3.toNat := by
      simp only [isDig, Bool.and_eq_true, decide_eq_true_eq] at hp3
      omega
    refine ⟨?_, ?_⟩
    · intro x hx
      simp only [List.singleton_append, List.cons_append, List.nil_append, List.mem_cons,
        List.not_mem_nil, or_false] at hx
      rcases hx with rfl | rfl | rfl
      · decide
      · exact hd2
      · exact hp3
    · refine ⟨10 * (20 + (c2.toNat - 48)) + (c3.toNat - 48), ?_, by omega⟩
      have := pyIntDec_three (a := '2') (b := c2) (c := c3) (by decide) hd2 hp3
      simpa using this
  rcases matches_alt_inv h with hb | h
  · -- 1[0-9]{2}
    obtain ⟨u1, w, hu, h1, hw⟩ := matches_cat_inv hb
    obtain ⟨c1, hc1, hp1⟩ := matches_cls_inv h1
    obtain ⟨hwl, hwd⟩ := matches_rePow_cls hw
    rw [decide_eq_true_eq] at hp1
    subst hu hc1 hp1
    match w, hwl with
    | [c2, c3], _ =>
      have hp2 := hwd c2 (by simp)
      have hp3 := hwd c3 (by simp)
      have hb2 : 48 ≤ c2.toNat ∧ c2.toNat ≤ 57 := by
        simp only [isDig, Bool.and_eq_true, decide_eq_true_eq] at hp2
        omega
      have hb3 : 48 ≤ c3.toNat ∧ c3.toNat ≤ 57 := by
        simp only [isDig, Bool.and_eq_true, decide_eq_true_eq] at hp3
        omega
      refine ⟨?_, ?_⟩
      · intro x hx
        simp only [List.singleton_append, List.cons_append, List.nil_append, List.mem_cons,
          List.not_mem_nil, or_false] at hx
        rcases hx with rfl | rfl | rfl
        · decide
        · exact hp2
        · exact hp3
      · refine ⟨10 * (10 + (c2.toNat - 48)) + (c3.toNat - 48), ?_, by omega⟩
        have := pyIntDec_three (a := '1') (b := c2) (c := c3) (by decide) hp2 hp3
        simpa using this
  rcases matches_alt_inv h with hb | hb
  · -- [1-9][0-9]
    obtain ⟨u1, u2, hu, h1, h2⟩ := matches_cat_inv hb
    obtain ⟨c1, hc1, hp1⟩ := matches_cls_inv h1
    obtain ⟨c2, hc2, hp2⟩ := matches_cls_inv h2
    subst hu hc1 hc2
    have hd1 := isDig19_isDig hp1
    have hb1 : c1.toNat ≤ 57 ∧ 48 ≤ c1.toNat := by
      simp only [isDig19, Bool.and_eq_true, decide_eq_true_eq] at hp1
      omega
    have hb2 : 48 ≤ c2.toNat ∧ c2.toNat ≤ 57 := by
      simp only [isDig, Bool.and_eq_true, decide_eq_true_eq] at hp2
      omega
    refine ⟨?_, ?_⟩
    · intro x hx
      simp only [List.singleton_append, List.cons_append, List.nil_append, List.mem_cons,
        List.not_mem_nil, or_false] at hx
      rcases hx with rfl | rfl
      · exact hd1
      · exact hp2
    · refine ⟨10 * (c1.toNat - 48) + (c2.toNat - 48), ?_, by omega⟩
      have := pyIntDec_two hd1 hp2
      simpa using this
  · -- [0-9]
    obtain ⟨c, hc, hp⟩ := matches_cls_inv hb
    subst hc
    have hb1 : 48 ≤ c.toNat ∧ c.toNat ≤ 57 := by
      simp only [isDig, Bool.and_eq_true, decide_eq_true_eq] at hp
      omega
    refine ⟨?_, ⟨c.toNat - 48, pyIntDec_one hp, by omega⟩⟩
    intro x hx
    rw [List.mem_singleton] at hx
    exact hx ▸ hp

/-- A run of `m` octets each followed by a dot, with composition onto any
trailing string. -/
theorem matches_rePow_octDot {m : Nat} {u : List Char}
    (h : Matches (rePow (.cat octet (.cls (· = '.'))) m) u) :
    ∃ os : List (List Char),
      os.length = m ∧ (∀ x ∈ os, AllDig x ∧ ∃ v, pyIntDec x = some v ∧ v ≤ 255) ∧
      ∀ w, u ++ w = interSep '.' (os ++ [w]) := by
  induction m generalizing u with
  | zero =>
    have hu := matches_eps_inv h
    subst hu
    exact ⟨[], rfl, by simp, fun w => by simp [interSep]⟩
  | succ m ih =>
    obtain ⟨a, b, hab, ha, hb⟩ := matches_cat_inv h
    obtain ⟨o, d, hod, ho, hd⟩ := matches_cat_inv ha
    obtain ⟨c, hc, hpc⟩ := matches_cls_inv hd
    rw [decide_eq_true_eq] at hpc
    obtain ⟨os, h1, h2, h3⟩ := ih hb
    subst hab hod hc hpc
    refine ⟨o :: os, by simp [h1], ?_, ?_⟩
    · intro x hx
      rw [List.mem_cons] at hx
      rcases hx with hx | hx
      · exact hx ▸ matches_octet ho
      · exact h2 x hx
    · intro w
      rw [List.append_assoc, List.append_assoc, List.singleton_append, h3 w]
      rw [List.cons_append, interSep_cons (by simp)]

/-- Mapping `int()` over octet pieces with known parses succeeds with the
same count and bounds. -/
theorem mapM_pyIntDec_bounded {os : List (List Char)}
    (h : ∀ o ∈ os, ∃ v, pyIntDec o = some v ∧ v ≤ 255) :
    ∃ vs : List Nat, os.mapM pyIntDec = some vs ∧ vs.length = os.length ∧
      ∀ v ∈ vs, v ≤ 255 := by
  induction os with
  | nil => exact ⟨[], rfl, rfl, by simp⟩
  | cons o os ih =>
    obtain ⟨v, hv, hvb⟩ := h o (by simp)
    obtain ⟨vs, hvs, hlen, hbs⟩ := ih fun x hx => h x (by simp [hx])
    refine ⟨v :: vs, ?_, by simp [hlen], ?_⟩
    · rw [List.mapM_cons, hv, hvs]
      rfl
    · intro x hx
      rw [List.mem_cons] at hx
      rcases hx with hx | hx
      · exact hx ▸ hvb
      · exact hbs x hx

/-- Every text in the language of the ipv4 core pattern splits on `'.'` into
exactly four pieces that parse to decimal values at most 255. -/
theorem matches_ipv4Core_octets {t : List Char} (h : Matches ipv4Core t) :
    ∃ vs : List Nat, (pySplit '.' t).mapM pyIntDec = some vs ∧ vs.length = 4 ∧
      ∀ v ∈ vs, v ≤ 255 := by
  obtain ⟨u, v, ht, hu, hv⟩ := matches_cat_inv h
  obtain ⟨os, hoslen, hosprops, h3⟩ := matches_rePow_octDot hu
  have hvprops := matches_octet hv
  subst ht
  rw [h3 v]
  have hps : pySplit '.' (interSep '.' (os ++ [v])) = os ++ [v] := by
    refine pySplit_interSep (by simp) ?_
    intro p hp c hc
    rw [List.mem_append] at hp
    rcases hp with hp | hp
    · exact isDig_ne_dot ((hosprops p hp).1 c hc)
    · rw [List.mem_singleton] at hp
      exact isDig_ne_dot (hvprops.1 c (hp ▸ hc))
  rw [hps]
  have hall : ∀ o ∈ os ++ [v], ∃ w, pyIntDec o = some w ∧ w ≤ 255 := by
    intro o ho
    rw [List.mem_append] at ho
    rcases ho with ho | ho
    · exact (hosprops o ho).2
    · rw [List.mem_singleton] at ho
      exact ho ▸ hvprops.2
  obtain ⟨vs, hvs, hlen, hbs⟩ := mapM_pyIntDec_bounded hall
  refine ⟨vs, hvs, ?_, hbs⟩
  rw [hlen]
  simp [hoslen]

/-! ## The substitution result for callbacks that cannot raise -/

/-- Source `substSpans` for a total callback, as a pure value. -/
def substPure (cb : MatchData → List Seg) (s : List Char) :
    List Span → Nat → List Seg
  | [], pos => consRaw (s.drop pos) []
  | sp :: rest, pos =>
    consRaw (extract s pos sp.start)
      (cb ⟨s, sp.start, sp.stop, sp.lastgroup⟩ ++ substPure cb s rest sp.stop)

/-- With a callback that never raises, `substSpans` always succeeds and
produces the pure interleaving. -/
theorem substSpans_total (cb : MatchData → List Seg) (s : List Char) :
    ∀ (spans : List Span) (pos : Nat),
      substSpans (fun m => some (cb m)) s spans pos = some (substPure cb s spans pos) := by
  intro spans
  induction spans with
  | nil => intro pos; rfl
  | cons sp rest ih =>
    intro pos
    simp only [substSpans, substPure, ih sp.stop, Option.bind_eq_bind, Option.bind_some]
    rfl

/-! ## The 8-bit color fold -/

/-- The fold of `from_int_list_8bit` computes the sum modulo 228. -/
theorem foldl_pyMod_sum (lst : List Int) (a : Int) :
    lst.foldl (fun acc i => pyMod (acc + i) 228) (pyMod a 228) = pyMod (a + lst.sum) 228 := by
  induction lst generalizing a with
  | nil => simp
  | cons i l ih =>
    rw [List.foldl_cons]
    have h1 : pyMod (pyMod a 228 + i) 228 = pyMod (a + i) 228 := by
      unfold pyMod
      rw [Int.fmod_eq_emod _ (by norm_num), Int.fmod_eq_emod _ (by norm_num),
        Int.fmod_eq_emod _ (by norm_num), Int.emod_add_emod]
    rw [h1, ih (a + i)]
    rw [List.sum_cons]
    ring_nf

/-! ## The greyscale exclusion predicate -/

/-- The 8-bit palette entries removed by `RgbConverter._value_table_8bit`:
0, 7, 15 and the greyscale block 231-255. -/
def isGreyscale8 (x : Nat) : Prop := x = 0 ∨ x = 7 ∨ x = 15 ∨ (231 ≤ x ∧ x ≤ 255)

instance (x : Nat) : Decidable (isGreyscale8 x) := by
  unfold isGreyscale8
  infer_instance

/-! ## Claim theorems -/

/-- C1: for every line filter (the base-class `__call__` is shared by
`LineRegexFilter` and `CompositeLineRegexFilter`, differing only in the
callback) and every input line: with zero pattern occurrences, `subn` leaves
the line unchanged and `__call__` returns the no-match signal `None`; with
one or more occurrences, `__call__` returns the fully-substituted line
(every occurrence replaced via the callback) with a positive replacement
count. -/
theorem claim_C1 (r : RE) (cb : MatchData → List Seg) (line : List Char) :
    (findAll line r = [] →
      subnModel r (fun m => some (cb m)) line = some (consRaw line [], 0) ∧
      filterCall r (fun m => some (cb m)) line = some none) ∧
    (findAll line r ≠ [] →
      subnModel r (fun m => some (cb m)) line =
        some (substPure cb line (findAll line r) 0, (findAll line r).length) ∧
      filterCall r (fun m => some (cb m)) line =
        some (some (substPure cb line (findAll line r) 0))) := by
  constructor
  · intro h0
    have hs : subnModel r (fun m => some (cb m)) line = some (consRaw line [], 0) := by
      unfold subnModel
      rw [h0, substSpans_total]
      simp only [Option.map_some']
      rw [show substPure cb line [] 0 = consRaw line [] by simp [substPure]]
      rfl
    refine ⟨hs, ?_⟩
    unfold filterCall
    rw [hs]
    rfl
  · intro h0
    have hs : subnModel r (fun m => some (cb m)) line =
        some (substPure cb line (findAll line r) 0, (findAll line r).length) := by
      unfold subnModel
      rw [substSpans_total]
      rfl
    refine ⟨hs, ?_⟩
    unfold filterCall
    rw [hs]
    have hne : ¬((findAll line r).length ≤ 0) := by
      simp only [Nat.le_zero]
      exact fun hc => h0 (List.length_eq_zero.mp hc)
    simp only [Option.map_some']
    rw [if_neg hne]

/-- Witness for C1: the timestamp filter pattern on a non-matching and on a
matching line. -/
theorem claim_C1_witness :
    filterCall tsFull (fun m => some [Seg.raw (MatchData.group0 m)]) "abc".data =
      some none ∧
    filterCall tsFull (fun m => some [Seg.raw (MatchData.group0 m)]) "12:34:56".data =
      some (some (substPure (fun m => [Seg.raw (MatchData.group0 m)]) "12:34:56".data
        (findAll "12:34:56".data tsFull) 0)) :=
  ⟨((claim_C1 tsFull (fun m => [Seg.raw (MatchData.group0 m)]) "abc".data).1
      (by decide)).2,
   ((claim_C1 tsFull (fun m => [Seg.raw (MatchData.group0 m)]) "12:34:56".data).2
      (by decide)).2⟩

/-- C2 (code bug): in the defensive branch (`lastgroup` unresolvable),
`CompositeLineRegexFilter._match_replace_callback` returns `match.string` -
the whole subject line - instead of `match.group(0)`, so the matched text is
not left unchanged: substituting the match `"by"` inside the line `"xbye"`
produces the segments of `"x" + "xbye" + "e"`, not the original line. -/
theorem claim_C2 :
    compositeCallback [UtilPy.tsSub] ⟨"xbye".data, 1, 3, none⟩ =
      some [Seg.raw "xbye".data] ∧
    MatchData.group0 ⟨"xbye".data, 1, 3, none⟩ = "by".data ∧
    substSpans (compositeCallback [UtilPy.tsSub]) "xbye".data [⟨1, 3, none⟩] 0 =
      some [Seg.raw "x".data, Seg.raw "xbye".data, Seg.raw "e".data] ∧
    [Seg.raw "x".data, Seg.raw "xbye".data, Seg.raw "e".data] ≠
      [Seg.raw "xbye".data] := by
  decide

/-- C3: `from_int_list_8bit` is a pure function of the sum of its input
modulo 228 - the palette entry at index `sum % 228` - and its output is
never one of the removed greyscale values 0, 7, 15, 231-255. -/
theorem claim_C3 (lst : List Int) :
    RgbConverter.from_int_list_8bit lst =
      RgbConverter.valueTable8bit.getD ((lst.sum % 228).toNat) 0 ∧
    ¬isGreyscale8 (RgbConverter.from_int_list_8bit lst) := by
  have h228 : (RgbConverter.range8 : Int) = 228 := by decide
  have hfold : lst.foldl (fun acc i => pyMod (acc + i) (RgbConverter.range8 : Int)) 0 =
      lst.sum % 228 := by
    rw [h228]
    have h0 : pyMod 0 228 = 0 := by decide
    have hs := foldl_pyMod_sum lst 0
    rw [h0] at hs
    rw [hs]
    unfold pyMod
    rw [Int.fmod_eq_emod _ (by norm_num), zero_add]
  have hmain : RgbConverter.from_int_list_8bit lst =
      RgbConverter.valueTable8bit.getD ((lst.sum % 228).toNat) 0 := by
    unfold RgbConverter.from_int_list_8bit
    rw [hfold]
  refine ⟨hmain, ?_⟩
  rw [hmain]
  have hlt : ((lst.sum % 228).toNat) < RgbConverter.valueTable8bit.length := by
    have h1 : 0 ≤ lst.sum % 228 := Int.emod_nonneg _ (by norm_num)
    have h2 : lst.sum % 228 < 228 := Int.emod_lt_of_pos _ (by norm_num)
    have h3 : RgbConverter.valueTable8bit.length = 228 := by decide
    omega
  rw [List.getD_eq_getElem _ _ hlt]
  have hclean : ∀ x ∈ RgbConverter.valueTable8bit, ¬isGreyscale8 x := by decide
  exact hclean _ (List.getElem_mem hlt)

/-- Witness for C3 at the spec's example input. -/
theorem claim_C3_witness :
    RgbConverter.from_int_list_8bit [192, 168, 1, 1] =
      RgbConverter.valueTable8bit.getD ((([192, 168, 1, 1] : List Int).sum % 228).toNat) 0 ∧
    ¬isGreyscale8 (RgbConverter.from_int_list_8bit [192, 168, 1, 1]) :=
  claim_C3 [192, 168, 1, 1]

/-- C4: for every text in the ipv6 pattern's (core) language, the replacement
function's parse - split on the first `::`, hextets in base 16, empty
segments as 0, `8 - (before + after)` inserted zero segments - succeeds and
yields exactly 8 integers, which are handed to the 8-bit color deriver. -/
theorem claim_C4 (t : List Char) (h : reFull ipv6Core t = true) :
    ∃ segs, ipv6Segments t = some segs ∧ segs.length = 8 ∧
      ipv6Replacer t = some [Seg.styled ⟨false, false, true,
        some (.idx (RgbConverter.from_int_list_8bit (segs.map Int.ofNat)))⟩ t] := by
  obtain ⟨segs, h1, h2⟩ := matches_ipv6Core_segments (reFull_matches h)
  refine ⟨segs, h1, h2, ?_⟩
  unfold ipv6Replacer
  rw [h1]
  rfl

/-- Witness for C4: `'::1'` matches and yields the segment sequence
`[0,0,0,0,0,0,0,1]`. -/
theorem claim_C4_witness :
    reFull ipv6Core "::1".data = true ∧
    ipv6Segments "::1".data = some [0, 0, 0, 0, 0, 0, 0, 1] ∧
    ∃ segs, ipv6Segments "::1".data = some segs ∧ segs.length = 8 ∧
      ipv6Replacer "::1".data = some [Seg.styled ⟨false, false, true,
        some (.idx (RgbConverter.from_int_list_8bit (segs.map Int.ofNat)))⟩ "::1".data] :=
  ⟨by decide, by decide, claim_C4 "::1".data (by decide)⟩

/-- C6: for every text in the ipv4 pattern's (core) language, the
replacement splits it on `'.'` into exactly four decimal octets, each at
most 255, and emits the matched text underlined with the foreground color
derived from those four integers by the 8-bit color deriver. -/
theorem claim_C6 (t : List Char) (h : reFull ipv4Core t = true) :
    ∃ vs, (pySplit '.' t).mapM pyIntDec = some vs ∧ vs.length = 4 ∧
      (∀ v ∈ vs, v ≤ 255) ∧
      ipv4Replacer t = some [Seg.styled ⟨false, false, true,
        some (.idx (RgbConverter.from_int_list_8bit (vs.map Int.ofNat)))⟩ t] := by
  obtain ⟨vs, h1, h2, h3⟩ := matches_ipv4Core_octets (reFull_matches h)
  refine ⟨vs, h1, h2, h3, ?_⟩
  unfold ipv4Replacer
  rw [h1]
  rfl

/-- Witness for C6: `'192.168.1.5'` parses to `[192, 168, 1, 5]`, whose
derived 8-bit color is palette entry 141. -/
theorem claim_C6_witness :
    reFull ipv4Core "192.168.1.5".data = true ∧
    (pySplit '.' "192.168.1.5".data).mapM pyIntDec = some [192, 168, 1, 5] ∧
    RgbConverter.from_int_list_8bit [192, 168, 1, 5] = 141 ∧
    ∃ vs, (pySplit '.' "192.168.1.5".data).mapM pyIntDec = some vs ∧ vs.length = 4 ∧
      (∀ v ∈ vs, v ≤ 255) ∧
      ipv4Replacer "192.168.1.5".data = some [Seg.styled ⟨false, false, true,
        some (.idx (RgbConverter.from_int_list_8bit (vs.map Int.ofNat)))⟩
        "192.168.1.5".data] :=
  ⟨by decide, by decide, by decide, claim_C6 "192.168.1.5".data (by decide)⟩

/-- C7: the bare text `'::'` never matches the ipv6 filter: applying the
filter to the line `'::'` yields the no-match result and the scan finds no
match span anywhere in that line. -/
theorem claim_C7 :
    ipv6FilterCall "::".data = some none ∧ findAll "::".data ipv6Full = [] := by
  decide

/-- C8: the timestamp filter restyles the whole string `'12:34:56'`, does
not match `'112:34:567'` (digit adjacency fails the lookarounds), and does
match inside `'a12:34:56b'` (letters satisfy the non-digit boundary). -/
theorem claim_C8 :
    tsFilterCall "12:34:56".data =
      some (some [Seg.styled ⟨true, false, false, some (.named "bright_white")⟩
        "12:34:56".data]) ∧
    tsFilterCall "112:34:567".data = some none ∧
    tsFilterCall "a12:34:56b".data =
      some (some [Seg.raw "a".data,
        Seg.styled ⟨true, false, false, some (.named "bright_white")⟩ "12:34:56".data,
        Seg.raw "b".data]) := by
  decide

/-- C9 (code bug): with the source's `_range24 = 70 - 255 = -185`, the
24-bit derivation at input `[115]` (CPython `hash(0) = 0`) produces channel
value `-77 = 70 + (38 % -185)`, which is not in `[70, 255)`. -/
theorem claim_C9 :
    RgbConverter.from_int_list_24bit [115] = (-77, -77, -77) ∧
    ¬(70 ≤ (RgbConverter.from_int_list_24bit [115]).1 ∧
      (RgbConverter.from_int_list_24bit [115]).1 < 255) := by
  decide

/-- C5 (code bug): `main` returns immediately when neither `first` nor
`last` is given, so with only the timestamp filter enabled the output is
empty - the matched line does not appear at all; passing `first = 2` shows
the filter pipeline itself keeps the matching line (styled italic by
`util.py`'s own timestamp filter) and drops `'no time here'`. -/
theorem claim_C5 :
    UtilPy.mainModel ⟨none, none, true, false, false⟩
      ["Event at 12:34:56 occurred".data, "no time here".data] = some [] ∧
    UtilPy.mainModel ⟨some 2, none, true, false, false⟩
      ["Event at 12:34:56 occurred".data, "no time here".data] =
      some [[Seg.raw "Event at ".data,
        Seg.styled ⟨false, true, false, none⟩ "12:34:56".data,
        Seg.raw " occurred".data]] := by
  decide

/-! ## Claim C10: the duplicated filters in util.py versus _linefilters.py -/

/-- All colon-pieces of both `::`-sections of a text, as seen by the two
ipv6 replacers. -/
def ipv6AllPieces (t : List Char) : List (List Char) :=
  pySplit ':' (pySplitOnceCC t).1 ++
    (match (pySplitOnceCC t).2 with
     | none => []
     | some s1 => pySplit ':' s1)

/-- On nonempty pieces, the guarded and the bare hextet parse agree. -/
theorem mapM_parseHextet_of_ne_nil {ps : List (List Char)} (h : ∀ p ∈ ps, p ≠ []) :
    ps.mapM pyIntHex = ps.mapM parseHextet := by
  induction ps with
  | nil => rfl
  | cons p ps ih =>
    rw [List.mapM_cons, List.mapM_cons]
    rw [show parseHextet p = pyIntHex p from
      by unfold parseHextet; rw [if_neg (by simpa using h p (by simp))]]
    rw [ih fun x hx => h x (by simp [hx])]

/-- The two 8-bit color derivations are the same function: the literal table
in `util.py` equals the computed table in `_colorgen.py`. -/
theorem utilPy_from8_eq (l : List Int) :
    UtilPy.from_int_list_8bit l = RgbConverter.from_int_list_8bit l := by
  have htab : UtilPy.valueTable8bit = RgbConverter.valueTable8bit := by decide
  unfold UtilPy.from_int_list_8bit RgbConverter.from_int_list_8bit
  rw [show (UtilPy.range8 : Int) = (RgbConverter.range8 : Int) from by decide, htab]

/-- Counterexample to C10: the timestamp replacers style differently (italic
versus bold bright-white), and on the matched text `'::1'` the `util.py`
ipv6 replacer raises (`int('', 16)`) while the `_linefilters.py` replacer
succeeds. -/
theorem claim_C10_counterexample :
    UtilPy.tsReplacer "12:34:56".data ≠ tsReplacer "12:34:56".data ∧
    UtilPy.ipv6Replacer "::1".data = none ∧
    ipv6Replacer "::1".data ≠ none := by
  decide

/-- C10 as amended: the patterns are textually identical (this development
embeds them once), the ipv4 replacers agree on every text, and the ipv6
replacers agree on every text whose colon-pieces are all nonempty; they
differ exactly where a piece is empty (`util.py` raises `ValueError`), and
the timestamp styles differ (italic versus bold bright-white). -/
theorem claim_C10 (t : List Char) (h : ∀ p ∈ ipv6AllPieces t, p ≠ []) :
    UtilPy.ipv4Replacer t = ipv4Replacer t ∧
    UtilPy.ipv6Segments t = ipv6Segments t ∧
    UtilPy.ipv6Replacer t = ipv6Replacer t := by
  have hsegs : UtilPy.ipv6Segments t = ipv6Segments t := by
    unfold UtilPy.ipv6Segments ipv6Segments
    have h0 : ∀ p ∈ pySplit ':' (pySplitOnceCC t).1, p ≠ [] := by
      intro p hp
      exact h p (by unfold ipv6AllPieces; rw [List.mem_append]; exact Or.inl hp)
    rw [mapM_parseHextet_of_ne_nil h0]
    cases h2 : (pySplitOnceCC t).2 with
    | none => rfl
    | some s1 =>
      have h1 : ∀ p ∈ pySplit ':' s1, p ≠ [] := by
        intro p hp
        refine h p ?_
        unfold ipv6AllPieces
        rw [List.mem_append, h2]
        exact Or.inr hp
      simp only [mapM_parseHextet_of_ne_nil h1]
  refine ⟨?_, hsegs, ?_⟩
  · unfold UtilPy.ipv4Replacer ipv4Replacer
    cases (pySplit '.' t).mapM pyIntDec with
    | none => rfl
    | some vs => simp [utilPy_from8_eq]
  · unfold UtilPy.ipv6Replacer ipv6Replacer
    rw [hsegs]
    cases ipv6Segments t with
    | none => rfl
    | some segs => simp [utilPy_from8_eq]

/-- Witness for C10 at a compressed address with no empty piece. -/
theorem claim_C10_witness :
    (∀ p ∈ ipv6AllPieces "fe80:12::34:1".data, p ≠ []) ∧
    UtilPy.ipv4Replacer "fe80:12::34:1".data = ipv4Replacer "fe80:12::34:1".data ∧
    UtilPy.ipv6Segments "fe80:12::34:1".data = ipv6Segments "fe80:12::34:1".data ∧
    UtilPy.ipv6Replacer "fe80:12::34:1".data = ipv6Replacer "fe80:12::34:1".data :=
  ⟨by decide, claim_C10 "fe80:12::34:1".data (by decide)⟩
